import Mathlib

/-!
Verification of the experimental breadth-first NFA regexp bytecode interpreter
(`experimental-interpreter.cc`).  The interpreter executes a bytecode program
consisting of `CONSUME_RANGE`, `FORK`, `JMP` and `ACCEPT` instructions over an
input string in lockstep, keeping a priority-ordered list of logical threads,
a per-PC dedup table, and a best-match slot.

The C++ while loops are modelled by fueled recursion returning `Option`:
`none` means the fuel was exhausted (or an out-of-range program counter was
decoded, which is undefined behaviour in the source).  Termination theorems
show that on valid programs a sufficient amount of fuel is always provided,
so the fueled model is total on the domain the source cares about.
-/

namespace ExperimentalRegExp

/-- Inclusive range of 16-bit code units, payload of `CONSUME_RANGE`. -/
structure Uc16Range where
  min : Nat
  max : Nat
deriving DecidableEq, Repr

/-- A bytecode instruction of the experimental regexp engine
(`RegExpInstruction` with opcodes `CONSUME_RANGE`, `FORK`, `JMP`, `ACCEPT`). -/
inductive RegExpInstruction where
  | CONSUME_RANGE (consume_range : Uc16Range)
  | FORK (pc : Nat)
  | JMP (pc : Nat)
  | ACCEPT
deriving DecidableEq, Repr

/-- Boundaries of a match: `[begin, end)` as input offsets. -/
structure MatchRange where
  «begin» : Nat
  «end» : Nat
deriving DecidableEq, Repr

/-- The state of a "thread" executing experimental regexp bytecode: a program
counter and the input index where this thread started executing. -/
structure InterpreterThread where
  pc : Nat
  match_begin : Nat
deriving DecidableEq, Repr

/-- The mutable state of `NfaInterpreter`: the per-PC dedup table
`pc_last_input_index_`, the two priority-ordered thread lists, the best-match
slot and the current input index.  (The immutable bytecode and input are
passed as parameters to each operation.)  `active_threads` is sorted from low
to high priority and popped from the back; `blocked_threads` is sorted from
high to low priority. -/
structure NfaState where
  pc_last_input_index : List Int
  active_threads : List InterpreterThread
  blocked_threads : List InterpreterThread
  best_match : Option MatchRange
  input_index : Nat
deriving DecidableEq, Repr

/-- `IsPcProcessed`: whether a thread executed at `pc` since the last increment
of `input_index` (dedup table entry equals the current input index). -/
def IsPcProcessed (s : NfaState) (pc : Nat) : Bool :=
  s.pc_last_input_index.getD pc (-1) = (s.input_index : Int)

/-- `MarkPcProcessed`: record that a thread executed at `pc` at the current
input index. -/
def MarkPcProcessed (s : NfaState) (pc : Nat) : NfaState :=
  { s with pc_last_input_index :=
      s.pc_last_input_index.set pc (s.input_index : Int) }

/-- `RunActiveThread`: run one active thread `t` until it executes a
`CONSUME_RANGE` (push it on `blocked_threads`) or `ACCEPT` (set `best_match`,
discard all remaining active threads), or until its PC was already processed
at the current input index.  A `FORK` appends a lower-priority copy at the
fork target and continues in-place at PC+1; a `JMP` continues in-place at the
target.  Fueled; `none` means fuel ran out or an out-of-range PC was decoded. -/
def RunActiveThread (bytecode : List RegExpInstruction) :
    Nat → InterpreterThread → NfaState → Option NfaState
  | 0, _, _ => none
  | fuel + 1, t, s =>
    if IsPcProcessed s t.pc then some s
    else
      let s1 := MarkPcProcessed s t.pc
      match bytecode.get? t.pc with
      | none => none
      | some (.CONSUME_RANGE _) =>
        some { s1 with blocked_threads := s1.blocked_threads ++ [t] }
      | some (.FORK target) =>
        RunActiveThread bytecode fuel ⟨t.pc + 1, t.match_begin⟩
          { s1 with active_threads :=
              s1.active_threads ++ [⟨target, t.match_begin⟩] }
      | some (.JMP target) =>
        RunActiveThread bytecode fuel ⟨target, t.match_begin⟩ s1
      | some .ACCEPT =>
        some { s1 with
          best_match := some ⟨t.match_begin, s1.input_index⟩
          active_threads := [] }

/-- `RunActiveThreads` (fueled loop body): repeatedly pop the highest-priority
active thread and run it, until no active thread remains. -/
def RunActiveThreadsFuel (bytecode : List RegExpInstruction) :
    Nat → NfaState → Option NfaState
  | 0, s => if s.active_threads.isEmpty then some s else none
  | fuel + 1, s =>
    match s.active_threads.getLast? with
    | none => some s
    | some t =>
      match RunActiveThread bytecode (bytecode.length + 1) t
          { s with active_threads := s.active_threads.dropLast } with
      | none => none
      | some s2 => RunActiveThreadsFuel bytecode fuel s2

/-- `RunActiveThreads` with the fuel bound that is proved sufficient for valid
programs: one unit per popped thread, and each popped thread either makes no
progress or marks a fresh PC. -/
def RunActiveThreads (bytecode : List RegExpInstruction) (s : NfaState) :
    Option NfaState :=
  RunActiveThreadsFuel bytecode (s.active_threads.length + bytecode.length + 1) s

/-- The body of the `FlushBlockedThreads` loop for one blocked thread: decode
its `CONSUME_RANGE` instruction and, if `input_char` lies in the inclusive
range, advance the PC by one (the thread survives); otherwise drop it.
A blocked thread can only point at a `CONSUME_RANGE` instruction (DCHECK in
the source); any other instruction also drops the thread here. -/
def flushThread (bytecode : List RegExpInstruction) (input_char : Nat)
    (t : InterpreterThread) : Option InterpreterThread :=
  match bytecode.get? t.pc with
  | some (.CONSUME_RANGE range) =>
    if range.min ≤ input_char ∧ input_char ≤ range.max then
      some ⟨t.pc + 1, t.match_begin⟩
    else none
  | _ => none

/-- `FlushBlockedThreads`: unblock all blocked threads by feeding them an input
character.  `blocked_threads` is traversed from end to start (reverse priority
order); each thread whose `CONSUME_RANGE` accepts `input_char` advances its PC
by one and is appended to `active_threads`; all others are dropped, and
`blocked_threads` is cleared. -/
def FlushBlockedThreads (bytecode : List RegExpInstruction) (input_char : Nat)
    (s : NfaState) : NfaState :=
  { s with
    active_threads := s.active_threads ++
      s.blocked_threads.reverse.filterMap (flushThread bytecode input_char)
    blocked_threads := [] }

/-- The per-symbol loop of `FindNextMatch`: while the input is not exhausted
and it is not the case that a best match is recorded with no blocked threads
remaining, read one character, advance the input index, seed a fresh
lowest-priority thread at PC 0 if no match was found yet, flush the blocked
threads, and run all active threads. -/
def FindNextMatchLoop (bytecode : List RegExpInstruction) (input : List Nat) :
    Nat → NfaState → Option NfaState
  | 0, s =>
    if s.input_index ≠ input.length ∧
        ¬(s.best_match.isSome ∧ s.blocked_threads.isEmpty) then none
    else some s
  | fuel + 1, s =>
    if s.input_index ≠ input.length ∧
        ¬(s.best_match.isSome ∧ s.blocked_threads.isEmpty) then
      let input_char := input.getD s.input_index 0
      let s1 := { s with input_index := s.input_index + 1 }
      let s2 :=
        if s1.best_match.isSome then s1
        else { s1 with active_threads :=
                 s1.active_threads ++ [⟨0, s1.input_index⟩] }
      let s3 := FlushBlockedThreads bytecode input_char s2
      match RunActiveThreads bytecode s3 with
      | none => none
      | some s4 => FindNextMatchLoop bytecode input fuel s4
    else some s

/-- The state `FindNextMatch` starts from: dedup table reset to `-1`,
a single seed thread `{pc := 0, match_begin := input_index}`, empty blocked
list, empty best-match slot. -/
def initialState (bytecode : List RegExpInstruction) (input_index : Nat) :
    NfaState :=
  { pc_last_input_index := List.replicate bytecode.length (-1)
    active_threads := [⟨0, input_index⟩]
    blocked_threads := []
    best_match := none
    input_index := input_index }

/-- `FindNextMatch`: find the next match starting the search at `input_index`.
Returns the match (or `none` for no match) together with the input index the
interpreter is left at; the outer `Option` is the fuel/validity error monad. -/
def FindNextMatch (bytecode : List RegExpInstruction) (input : List Nat)
    (input_index : Nat) : Option (Option MatchRange × Nat) :=
  match RunActiveThreads bytecode (initialState bytecode input_index) with
  | none => none
  | some s1 =>
    match FindNextMatchLoop bytecode input (input.length - input_index) s1 with
    | none => none
    | some s2 => some (s2.best_match, s2.input_index)

/-- `FindMatches`: find up to `max_match_num` matches, beginning the search at
`input_index` and, after each successful match, advancing the input cursor to
`match.end`.  Returns the list of matches found, in order. -/
def FindMatches (bytecode : List RegExpInstruction) (input : List Nat) :
    Nat → Nat → Option (List MatchRange)
  | _, 0 => some []
  | input_index, max_match_num + 1 =>
    match FindNextMatch bytecode input input_index with
    | none => none
    | some (none, _) => some []
    | some (some m, _) =>
      (FindMatches bytecode input m.«end» max_match_num).map (m :: ·)

/-- Validity of one instruction located at `pc` in a program of length `len`:
`FORK`/`JMP` targets are in range, and any instruction that falls through to
`pc + 1` (`CONSUME_RANGE` and `FORK`) has a successor in range. -/
def instValid (len pc : Nat) : RegExpInstruction → Bool
  | .CONSUME_RANGE _ => pc + 1 < len
  | .FORK target => pc + 1 < len && target < len
  | .JMP target => target < len
  | .ACCEPT => true

/-- A valid program: non-empty, with every instruction valid at its position. -/
def validProgram (bytecode : List RegExpInstruction) : Bool :=
  !bytecode.isEmpty &&
    (List.range bytecode.length).all (fun pc =>
      instValid bytecode.length pc (bytecode.getD pc .ACCEPT))

/-- The scenario-1 program of the specification, the pseudo-assembly encoding
of `abc|..|[a-c]{10,}`: `FORK 6; CONSUME a; CONSUME b; CONSUME c; ACCEPT;
JMP end; FORK 10; CONSUME .; CONSUME .; ACCEPT; FORK end; CONSUME a..c;
JMP 10`, with the `end` label (one past the written instructions, pc 13)
carrying the final `ACCEPT`. -/
def scenario1Program : List RegExpInstruction :=
  [.FORK 6, .CONSUME_RANGE ⟨97, 97⟩, .CONSUME_RANGE ⟨98, 98⟩,
   .CONSUME_RANGE ⟨99, 99⟩, .ACCEPT, .JMP 13, .FORK 10,
   .CONSUME_RANGE ⟨0, 65535⟩, .CONSUME_RANGE ⟨0, 65535⟩, .ACCEPT,
   .FORK 13, .CONSUME_RANGE ⟨97, 99⟩, .JMP 10, .ACCEPT]

/-- The scenario-1 input `"abcccccccccccccc"` as code units. -/
def scenario1Input : List Nat :=
  [97, 98] ++ List.replicate 14 99

/-- Number of program counters not yet marked as processed at the current
input index; decreases whenever a fresh PC is marked, bounding the
epsilon-closure work of one input step. -/
def unmarkedCount (bytecode : List RegExpInstruction) (s : NfaState) : Nat :=
  (List.range bytecode.length).countP (fun pc => !IsPcProcessed s pc)

/-- Well-formedness of an interpreter state with respect to the program: the
dedup table has one entry per instruction, every table entry is at most the
current input index, every active thread's PC is in range, and every blocked
thread is parked on a `CONSUME_RANGE` instruction. -/
structure WfState (bytecode : List RegExpInstruction) (s : NfaState) : Prop where
  table_len : s.pc_last_input_index.length = bytecode.length
  table_le : ∀ v ∈ s.pc_last_input_index, v ≤ (s.input_index : Int)
  active_pc : ∀ t ∈ s.active_threads, t.pc < bytecode.length
  blocked_consume : ∀ t ∈ s.blocked_threads,
    ∃ range, bytecode.get? t.pc = some (.CONSUME_RANGE range)

/-- Bounds linking every thread's `match_begin` and the best-match slot to
the start offset `idx0` of the current single-match search and to the current
input index. -/
structure BoundInv (idx0 : Nat) (s : NfaState) : Prop where
  idx_le : idx0 ≤ s.input_index
  active_begin : ∀ t ∈ s.active_threads,
    idx0 ≤ t.match_begin ∧ t.match_begin ≤ s.input_index
  blocked_begin : ∀ t ∈ s.blocked_threads,
    idx0 ≤ t.match_begin ∧ t.match_begin ≤ s.input_index
  best_le : ∀ m ∈ s.best_match,
    idx0 ≤ m.«begin» ∧ m.«begin» ≤ m.«end» ∧ m.«end» ≤ s.input_index

/-- The instrumented ("checked") model: identical to the plain model but
every intermediate state is tested with `stateOk` and the conjunction of
all the tests is threaded through as a `Bool`. -/
def isFORKb : RegExpInstruction → Bool
  | .FORK _ => true
  | _ => false

def isCONSUMEb : RegExpInstruction → Bool
  | .CONSUME_RANGE _ => true
  | _ => false

def rangeCountP (p : RegExpInstruction → Bool)
    (bytecode : List RegExpInstruction) : Nat :=
  (List.range bytecode.length).countP (fun pc => p (bytecode.getD pc .ACCEPT))

def unmarkedCountP (p : RegExpInstruction → Bool)
    (bytecode : List RegExpInstruction) (s : NfaState) : Nat :=
  (List.range bytecode.length).countP (fun pc =>
    p (bytecode.getD pc .ACCEPT) && !IsPcProcessed s pc)

def stateOk (bytecode : List RegExpInstruction) (s : NfaState) : Bool :=
  decide (s.active_threads.length ≤ bytecode.length) &&
  decide (s.blocked_threads.length ≤ bytecode.length) &&
  decide ((s.blocked_threads.map InterpreterThread.pc).Nodup)

def RunActiveThreadC (bytecode : List RegExpInstruction) :
    Nat → InterpreterThread → NfaState → Option (NfaState × Bool)
  | 0, _, _ => none
  | fuel + 1, t, s =>
    if IsPcProcessed s t.pc then some (s, stateOk bytecode s)
    else
      let s1 := MarkPcProcessed s t.pc
      match bytecode.get? t.pc with
      | none => none
      | some (.CONSUME_RANGE _) =>
        some ({ s1 with blocked_threads := s1.blocked_threads ++ [t] },
          stateOk bytecode s &&
            stateOk bytecode
              { s1 with blocked_threads := s1.blocked_threads ++ [t] })
      | some (.FORK target) =>
        (RunActiveThreadC bytecode fuel ⟨t.pc + 1, t.match_begin⟩
          { s1 with active_threads :=
              s1.active_threads ++ [⟨target, t.match_begin⟩] }).map
          (fun r => (r.1, stateOk bytecode s && r.2))
      | some (.JMP target) =>
        (RunActiveThreadC bytecode fuel ⟨target, t.match_begin⟩ s1).map
          (fun r => (r.1, stateOk bytecode s && r.2))
      | some .ACCEPT =>
        some ({ s1 with
            best_match := some ⟨t.match_begin, s1.input_index⟩
            active_threads := [] },
          stateOk bytecode s &&
            stateOk bytecode
              { s1 with
                best_match := some ⟨t.match_begin, s1.input_index⟩
                active_threads := [] })

def RunActiveThreadsCFuel (bytecode : List RegExpInstruction) :
    Nat → NfaState → Option (NfaState × Bool)
  | 0, s =>
    if s.active_threads.isEmpty then some (s, stateOk bytecode s) else none
  | fuel + 1, s =>
    match s.active_threads.getLast? with
    | none => some (s, stateOk bytecode s)
    | some t =>
      match RunActiveThreadC bytecode (bytecode.length + 1) t
          { s with active_threads := s.active_threads.dropLast } with
      | none => none
      | some (s2, ok2) =>
        (RunActiveThreadsCFuel bytecode fuel s2).map
          (fun r => (r.1, stateOk bytecode s && ok2 && r.2))

def RunActiveThreadsC (bytecode : List RegExpInstruction) (s : NfaState) :
    Option (NfaState × Bool) :=
  RunActiveThreadsCFuel bytecode
    (s.active_threads.length + bytecode.length + 1) s

def FindNextMatchLoopC (bytecode : List RegExpInstruction)
    (input : List Nat) : Nat → NfaState → Option (NfaState × Bool)
  | 0, s =>
    if s.input_index ≠ input.length ∧
        ¬(s.best_match.isSome ∧ s.blocked_threads.isEmpty) then none
    else some (s, stateOk bytecode s)
  | fuel + 1, s =>
    if s.input_index ≠ input.length ∧
        ¬(s.best_match.isSome ∧ s.blocked_threads.isEmpty) then
      let input_char := input.getD s.input_index 0
      let s1 := { s with input_index := s.input_index + 1 }
      let s2 :=
        if s1.best_match.isSome then s1
        else { s1 with active_threads :=
                 s1.active_threads ++ [⟨0, s1.input_index⟩] }
      let s3 := FlushBlockedThreads bytecode input_char s2
      match RunActiveThreadsC bytecode s3 with
      | none => none
      | some (s4, ok4) =>
        (FindNextMatchLoopC bytecode input fuel s4).map
          (fun r => (r.1, stateOk bytecode s && stateOk bytecode s2 &&
            stateOk bytecode s3 && ok4 && r.2))
    else some (s, stateOk bytecode s)

def FindNextMatchC (bytecode : List RegExpInstruction) (input : List Nat)
    (input_index : Nat) : Option ((Option MatchRange × Nat) × Bool) :=
  match RunActiveThreadsC bytecode (initialState bytecode input_index) with
  | none => none
  | some (s1, ok1) =>
    match FindNextMatchLoopC bytecode input (input.length - input_index) s1 with
    | none => none
    | some (s2, ok2) =>
      some ((s2.best_match, s2.input_index), ok1 && ok2)

/-- Invariant maintained while draining the active stack: every blocked
thread is marked in the dedup table, blocked PCs are distinct, and the
sizes of Active and Blocked are controlled by the number of yet-unmarked
`FORK` (resp. `CONSUME_RANGE`) locations. -/
structure DrainInv (bytecode : List RegExpInstruction) (s : NfaState) : Prop where
  blocked_marked : ∀ t ∈ s.blocked_threads, IsPcProcessed s t.pc = true
  blocked_nodup : (s.blocked_threads.map InterpreterThread.pc).Nodup
  jbound : s.active_threads.length + unmarkedCountP isFORKb bytecode s ≤
    bytecode.length
  bbound : s.blocked_threads.length + unmarkedCountP isCONSUMEb bytecode s ≤
    rangeCountP isCONSUMEb bytecode

/-- A program forking twice onto the same consuming location; running its
initial thread puts two threads with the same PC on the active stack. -/
def c8Program : List RegExpInstruction :=
  [.FORK 2, .FORK 2, .CONSUME_RANGE ⟨97, 97⟩, .ACCEPT]

/-- Spec-modelled reference semantics for the refinement claim: a
conventional leftmost-biased backtracking VM over the same instruction set.
`btRun` performs an anchored depth-first run from `pc` at input offset `i`;
at a `FORK` the PC+1 continuation is tried before the fork target.  `some
(some e)` is a match ending at `e`, `some none` is failure of this attempt,
and `none` is fuel exhaustion (the backtracker can diverge on fork/jump
cycles, which the breadth-first interpreter handles by dedup). -/
def btRun (bytecode : List RegExpInstruction) (input : List Nat) :
    Nat → Nat → Nat → Option (Option Nat)
  | 0, _, _ => none
  | fuel + 1, pc, i =>
    match bytecode.get? pc with
    | none => none
    | some (.CONSUME_RANGE r) =>
      match input.get? i with
      | none => some none
      | some c =>
        if r.min ≤ c ∧ c ≤ r.max then btRun bytecode input fuel (pc + 1) (i + 1)
        else some none
    | some (.FORK target) =>
      match btRun bytecode input fuel (pc + 1) i with
      | none => none
      | some (some e) => some (some e)
      | some none => btRun bytecode input fuel target i
    | some (.JMP target) => btRun bytecode input fuel target i
    | some .ACCEPT => some (some i)

/-- The backtracking VM's unanchored search: anchored attempts at offsets
`i, i + 1, ...` in order (`tries` of them), returning the first success. -/
def btSearch (bytecode : List RegExpInstruction) (input : List Nat)
    (btFuel : Nat) : Nat → Nat → Option (Option (Nat × Nat))
  | _, 0 => some none
  | i, tries + 1 =>
    match btRun bytecode input btFuel 0 i with
    | none => none
    | some (some e) => some (some (i, e))
    | some none => btSearch bytecode input btFuel (i + 1) tries

/-! ## Theorems -/

/-- If the guard of the per-symbol loop fails, the loop returns the state
unchanged, at any fuel. -/
theorem FindNextMatchLoop_exit (bytecode : List RegExpInstruction)
    (input : List Nat) (fuel : Nat) (s : NfaState)
    (h : ¬(s.input_index ≠ input.length ∧
        ¬(s.best_match.isSome ∧ s.blocked_threads.isEmpty))) :
    FindNextMatchLoop bytecode input fuel s = some s := by
  cases fuel <;> simp only [FindNextMatchLoop, if_neg h]

/-- C3: the per-symbol loop of `FindNextMatch` iterates exactly while the
input cursor has not reached the input length and it is not the case that the
best-match slot is set with an empty blocked set: with the guard false the
loop returns immediately, with the guard true it performs one step (advance
the cursor, seed a fresh thread if no match is recorded, flush the blocked
threads, drain the active threads) and recurses; in particular, once a match
is committed and the blocked set is empty, the state — and hence the
committed match and the input cursor — is returned unchanged, so no further
input symbol is consumed. -/
theorem c3_loop_guard (bytecode : List RegExpInstruction) (input : List Nat)
    (fuel : Nat) (s : NfaState) :
    (¬(s.input_index ≠ input.length ∧
        ¬(s.best_match.isSome ∧ s.blocked_threads.isEmpty)) →
      FindNextMatchLoop bytecode input fuel s = some s) ∧
    ((s.input_index ≠ input.length ∧
        ¬(s.best_match.isSome ∧ s.blocked_threads.isEmpty)) →
      ∀ s4, RunActiveThreads bytecode
          (FlushBlockedThreads bytecode (input.getD s.input_index 0)
            (if s.best_match.isSome then
              { s with input_index := s.input_index + 1 }
             else
              { s with
                input_index := s.input_index + 1
                active_threads :=
                  s.active_threads ++ [⟨0, s.input_index + 1⟩] })) = some s4 →
        FindNextMatchLoop bytecode input (fuel + 1) s =
          FindNextMatchLoop bytecode input fuel s4) ∧
    (s.best_match.isSome → s.blocked_threads.isEmpty →
      FindNextMatchLoop bytecode input fuel s = some s) := by
  refine ⟨fun h => FindNextMatchLoop_exit bytecode input fuel s h,
    fun h s4 h4 => ?_,
    fun h1 h2 => FindNextMatchLoop_exit bytecode input fuel s
      (fun hcontra => hcontra.2 ⟨h1, h2⟩)⟩
  simp only [FindNextMatchLoop, if_pos h, h4]

/-- Witness for C3 at a concrete state: a committed match with an empty
blocked set makes the loop return the state unchanged. -/
theorem c3_loop_guard_witness :
    FindNextMatchLoop [RegExpInstruction.ACCEPT] [97] 1
        ⟨[(0 : Int)], [], [], some ⟨0, 0⟩, 0⟩ =
      some ⟨[(0 : Int)], [], [], some ⟨0, 0⟩, 0⟩ :=
  (c3_loop_guard [RegExpInstruction.ACCEPT] [97] 1
    ⟨[(0 : Int)], [], [], some ⟨0, 0⟩, 0⟩).2.2 (by decide) (by decide)

/-- C4: when a stepped thread `t` reaches `ACCEPT` (its PC not yet processed
at the current input index), the best-match slot is set to
`{t.match_begin, input_index}`, all remaining active threads are discarded,
stepping returns, and the blocked set is left unmodified (only the dedup
table entry of `t.pc` is additionally updated). -/
theorem c4_accept (bytecode : List RegExpInstruction) (fuel : Nat)
    (t : InterpreterThread) (s : NfaState)
    (hdup : IsPcProcessed s t.pc = false)
    (hacc : bytecode.get? t.pc = some .ACCEPT) :
    RunActiveThread bytecode (fuel + 1) t s =
      some { s with
        pc_last_input_index :=
          s.pc_last_input_index.set t.pc (s.input_index : Int)
        best_match := some ⟨t.match_begin, s.input_index⟩
        active_threads := [] } := by
  simp only [RunActiveThread, hdup, Bool.false_eq_true, if_false, hacc,
    MarkPcProcessed]

/-- Witness for C4: a concrete accepting step. -/
theorem c4_accept_witness :
    RunActiveThread [RegExpInstruction.ACCEPT] 1 ⟨0, 0⟩
        ⟨[(-1 : Int)], [⟨0, 0⟩], [⟨0, 0⟩], none, 0⟩ =
      some ⟨[(0 : Int)], [], [⟨0, 0⟩], some ⟨0, 0⟩, 0⟩ :=
  c4_accept [RegExpInstruction.ACCEPT] 0 ⟨0, 0⟩
    ⟨[(-1 : Int)], [⟨0, 0⟩], [⟨0, 0⟩], none, 0⟩ (by decide) (by decide)

/-- C5: when a stepped thread `t` reaches `FORK target` (its PC not yet
processed at the current input index), a copy of `t` with `pc = target` is
appended to the active set and `t` itself continues stepping in-place at
`pc + 1` within the same call, so the whole epsilon closure of the PC+1
continuation is processed before the forked sibling is picked up. -/
theorem c5_fork (bytecode : List RegExpInstruction) (fuel : Nat)
    (t : InterpreterThread) (s : NfaState) (target : Nat)
    (hdup : IsPcProcessed s t.pc = false)
    (hfork : bytecode.get? t.pc = some (.FORK target)) :
    RunActiveThread bytecode (fuel + 1) t s =
      RunActiveThread bytecode fuel ⟨t.pc + 1, t.match_begin⟩
        { s with
          pc_last_input_index :=
            s.pc_last_input_index.set t.pc (s.input_index : Int)
          active_threads := s.active_threads ++ [⟨target, t.match_begin⟩] } := by
  simp only [RunActiveThread, hdup, Bool.false_eq_true, if_false, hfork,
    MarkPcProcessed]

/-- Witness for C5: a concrete fork step. -/
theorem c5_fork_witness :
    RunActiveThread [RegExpInstruction.FORK 2, RegExpInstruction.ACCEPT,
        RegExpInstruction.ACCEPT] 2 ⟨0, 5⟩
        ⟨[(-1 : Int), -1, -1], [], [], none, 5⟩ =
      RunActiveThread [RegExpInstruction.FORK 2, RegExpInstruction.ACCEPT,
        RegExpInstruction.ACCEPT] 1 ⟨1, 5⟩
        ⟨[(5 : Int), -1, -1], [⟨2, 5⟩], [], none, 5⟩ :=
  c5_fork [RegExpInstruction.FORK 2, RegExpInstruction.ACCEPT,
      RegExpInstruction.ACCEPT] 1 ⟨0, 5⟩
    ⟨[(-1 : Int), -1, -1], [], [], none, 5⟩ 2 (by decide) (by decide)

/-- C6: flushing the blocked set against an input symbol `c` traverses it
from end to start; every thread whose `CONSUME_RANGE` operand satisfies
`min ≤ c ≤ max` has its PC advanced by exactly one and is appended to the
active set (so the surviving threads re-enter the active set with highest
priority last), every other thread is dropped, and the blocked set is empty
afterwards. -/
theorem flush_filterMap_eq_filter_map (bytecode : List RegExpInstruction)
    (input_char : Nat) :
    ∀ l : List InterpreterThread,
    l.filterMap (flushThread bytecode input_char) =
      (l.filter (fun t =>
        (flushThread bytecode input_char t).isSome)).map
        (fun t => ⟨t.pc + 1, t.match_begin⟩) := by
  intro l
  induction l with
  | nil => rfl
  | cons hd tl ih =>
    rw [List.filterMap_cons, List.filter_cons]
    cases hF : flushThread bytecode input_char hd with
    | none => simpa [hF] using ih
    | some v =>
      have hv : v = ⟨hd.pc + 1, hd.match_begin⟩ := by
        rw [flushThread] at hF
        rcases hget : bytecode.get? hd.pc with _ | inst
        · rw [hget] at hF; exact absurd hF (by simp)
        · rw [hget] at hF
          cases inst with
          | CONSUME_RANGE range =>
            have hiF : (if range.min ≤ input_char ∧ input_char ≤ range.max
                then some (⟨hd.pc + 1, hd.match_begin⟩ : InterpreterThread)
                else none) = some v := hF
            by_cases hc : range.min ≤ input_char ∧ input_char ≤ range.max
            · rw [if_pos hc] at hiF
              exact (Option.some_inj.mp hiF).symm
            · rw [if_neg hc] at hiF
              exact absurd hiF (by simp)
          | FORK target => exact absurd hF (by simp)
          | JMP target => exact absurd hF (by simp)
          | ACCEPT => exact absurd hF (by simp)
      subst hv
      simp only [hF, Option.isSome_some, if_pos, List.map_cons]
      rw [ih]

/-- C6: flushing the blocked set against an input symbol `c` traverses the
blocked set from end to start; a blocked thread parked on
`CONSUME_RANGE [min, max]` survives exactly when `min ≤ c ≤ max`, in which
case its PC advances by exactly one; every surviving thread is appended to
the active set (highest priority last), every other thread is dropped, and
the blocked set is empty afterwards. -/
theorem c6_flush (bytecode : List RegExpInstruction) (input_char : Nat)
    (s : NfaState)
    (_hb : ∀ t ∈ s.blocked_threads,
      ∃ range, bytecode.get? t.pc = some (.CONSUME_RANGE range)) :
    (∀ t ∈ s.blocked_threads, ∀ range,
      bytecode.get? t.pc = some (.CONSUME_RANGE range) →
      flushThread bytecode input_char t =
        (if range.min ≤ input_char ∧ input_char ≤ range.max then
          some ⟨t.pc + 1, t.match_begin⟩
         else none)) ∧
    FlushBlockedThreads bytecode input_char s =
      { s with
        active_threads := s.active_threads ++
          ((s.blocked_threads.reverse.filter (fun t =>
            (flushThread bytecode input_char t).isSome)).map
            (fun t => ⟨t.pc + 1, t.match_begin⟩))
        blocked_threads := [] } := by
  refine ⟨fun t _ range hr => ?_, ?_⟩
  · rw [flushThread, hr]
  · simp only [FlushBlockedThreads]
    rw [flush_filterMap_eq_filter_map bytecode input_char
      s.blocked_threads.reverse]

/-- Witness for C6: a concrete flush with one surviving and one dropped
thread. -/
theorem c6_flush_witness :
    FlushBlockedThreads [RegExpInstruction.CONSUME_RANGE ⟨97, 97⟩,
        RegExpInstruction.CONSUME_RANGE ⟨98, 98⟩, RegExpInstruction.ACCEPT]
        97 ⟨[(-1 : Int), -1, -1], [], [⟨0, 0⟩, ⟨1, 0⟩], none, 1⟩ =
      ⟨[(-1 : Int), -1, -1], [⟨1, 0⟩], [], none, 1⟩ := by
  have h := (c6_flush [RegExpInstruction.CONSUME_RANGE ⟨97, 97⟩,
      RegExpInstruction.CONSUME_RANGE ⟨98, 98⟩, RegExpInstruction.ACCEPT]
    97 ⟨[(-1 : Int), -1, -1], [], [⟨0, 0⟩, ⟨1, 0⟩], none, 1⟩
    (by
      intro t ht
      simp only [List.mem_cons, List.not_mem_nil, or_false] at ht
      rcases ht with rfl | rfl
      · exact ⟨⟨97, 97⟩, rfl⟩
      · exact ⟨⟨98, 98⟩, rfl⟩)).2
  rw [h]
  decide


theorem getD_replicate (r n : Nat) (d : Int) :
    (List.replicate r d).getD n d = d := by
  rw [List.getD_eq_getD_get?, List.get?_eq_getElem?]
  exact List.getElem?_getD_replicate_default_eq d r n

/-- Draining an empty active set returns the state unchanged, at any fuel. -/
theorem RunActiveThreadsFuel_nil (bytecode : List RegExpInstruction)
    (fuel : Nat) (s : NfaState) (hs : s.active_threads = []) :
    RunActiveThreadsFuel bytecode fuel s = some s := by
  cases fuel with
  | zero => simp [RunActiveThreadsFuel, hs]
  | succ n => simp [RunActiveThreadsFuel, hs]

/-- A program whose instruction at PC 0 is `ACCEPT` makes `FindNextMatch`
commit the zero-length match `(idx, idx)` immediately and return with the
input cursor still at `idx`. -/
theorem FindNextMatch_accept0 (bytecode : List RegExpInstruction)
    (input : List Nat) (idx : Nat)
    (h0 : bytecode.get? 0 = some .ACCEPT) :
    FindNextMatch bytecode input idx = some (some ⟨idx, idx⟩, idx) := by
  have hproc : IsPcProcessed
      { pc_last_input_index := List.replicate bytecode.length (-1)
        active_threads := []
        blocked_threads := []
        best_match := none
        input_index := idx } 0 = false := by
    simp only [IsPcProcessed, getD_replicate]
    simp only [decide_eq_false_iff_not]
    omega
  have hstep : RunActiveThread bytecode (bytecode.length + 1) ⟨0, idx⟩
      { pc_last_input_index := List.replicate bytecode.length (-1)
        active_threads := []
        blocked_threads := []
        best_match := none
        input_index := idx } =
      some { pc_last_input_index :=
               (List.replicate bytecode.length (-1)).set 0 (idx : Int)
             active_threads := []
             blocked_threads := []
             best_match := some ⟨idx, idx⟩
             input_index := idx } := by
    rw [RunActiveThread, hproc]
    simp only [Bool.false_eq_true, if_false, h0, MarkPcProcessed]
  have hdrain : RunActiveThreads bytecode (initialState bytecode idx) =
      some { pc_last_input_index :=
               (List.replicate bytecode.length (-1)).set 0 (idx : Int)
             active_threads := []
             blocked_threads := []
             best_match := some ⟨idx, idx⟩
             input_index := idx } := by
    show RunActiveThreadsFuel bytecode
        ((initialState bytecode idx).active_threads.length + bytecode.length + 1)
        (initialState bytecode idx) = _
    have hfuel : (initialState bytecode idx).active_threads.length +
        bytecode.length + 1 = (1 + bytecode.length) + 1 := by
      simp [initialState]
    rw [hfuel, RunActiveThreadsFuel]
    simp only [initialState, List.getLast?_singleton, List.dropLast]
    rw [hstep]
    exact RunActiveThreadsFuel_nil bytecode (1 + bytecode.length) _ rfl
  have hloop : FindNextMatchLoop bytecode input (input.length - idx)
      { pc_last_input_index :=
          (List.replicate bytecode.length (-1)).set 0 (idx : Int)
        active_threads := []
        blocked_threads := []
        best_match := some ⟨idx, idx⟩
        input_index := idx } =
      some { pc_last_input_index :=
               (List.replicate bytecode.length (-1)).set 0 (idx : Int)
             active_threads := []
             blocked_threads := []
             best_match := some ⟨idx, idx⟩
             input_index := idx } :=
    FindNextMatchLoop_exit bytecode input _ _
      (fun hcontra => hcontra.2 ⟨rfl, rfl⟩)
  simp only [FindNextMatch, hdrain, hloop]

/-- C10: the match driver does not advance the input cursor after a
zero-length match: for every program whose instruction at PC 0 is `ACCEPT`,
every input, every start offset `idx` and every `K`, `FindMatches` with
`max = K` returns exactly `K` identical zero-length matches `(idx, idx)`. -/
theorem c10_zero_length_matches (bytecode : List RegExpInstruction)
    (input : List Nat) (idx : Nat) (K : Nat)
    (h0 : bytecode.get? 0 = some .ACCEPT) :
    FindMatches bytecode input idx K =
      some (List.replicate K (⟨idx, idx⟩ : MatchRange)) := by
  induction K with
  | zero => rfl
  | succ n ih =>
    simp only [FindMatches, FindNextMatch_accept0 bytecode input idx h0, ih,
      List.replicate_succ]
    rfl

/-- Witness for C10 at a concrete program, input, offset and count. -/
theorem c10_zero_length_matches_witness :
    FindMatches [RegExpInstruction.ACCEPT, RegExpInstruction.JMP 0] [97, 98]
        1 3 = some (List.replicate 3 (⟨1, 1⟩ : MatchRange)) :=
  c10_zero_length_matches [RegExpInstruction.ACCEPT, RegExpInstruction.JMP 0]
    [97, 98] 1 3 rfl

/-- C9 counterexample: on the scenario-1 program and input
`"abcccccccccccccc"` with `max = 1`, the interpreter does not produce the
match `(0, 2)` claimed by the specification table. -/
theorem c9_counterexample :
    ¬ FindMatches scenario1Program scenario1Input 0 1 =
      some [{ «begin» := 0, «end» := 2 }] := by
  decide

/-- C9 (amended): on the scenario-1 program and input `"abcccccccccccccc"`
with `max = 1`, the interpreter produces exactly one match and that match is
`(0, 3)`: the two-character alternative commits `(0, 2)` transiently after
two steps, but the higher-priority `abc` thread is still blocked at that
point, so the search continues and its accept overwrites the best match —
matching the backtracking semantics described in the source comment. -/
theorem c9_scenario1 :
    FindMatches scenario1Program scenario1Input 0 1 =
      some [{ «begin» := 0, «end» := 3 }] := by
  decide

-- validity accessors

theorem validProgram_pos (bytecode : List RegExpInstruction)
    (hv : validProgram bytecode = true) : 0 < bytecode.length := by
  simp only [validProgram, Bool.and_eq_true, Bool.not_eq_true'] at hv
  have := hv.1
  cases bytecode with
  | nil => simp at this
  | cons a l => simp

theorem validProgram_at (bytecode : List RegExpInstruction)
    (hv : validProgram bytecode = true) (pc : Nat) (inst : RegExpInstruction)
    (hget : bytecode.get? pc = some inst) :
    instValid bytecode.length pc inst = true := by
  simp only [validProgram, Bool.and_eq_true, List.all_eq_true] at hv
  obtain ⟨hlt, hval⟩ := List.get?_eq_some.mp hget
  have h := hv.2 pc (List.mem_range.mpr hlt)
  have hgd : bytecode.getD pc .ACCEPT = inst := by
    rw [List.getD_eq_getD_get?, hget, Option.getD_some]
  rwa [hgd] at h

theorem valid_consume (bytecode : List RegExpInstruction)
    (hv : validProgram bytecode = true) (pc : Nat) (range : Uc16Range)
    (hget : bytecode.get? pc = some (.CONSUME_RANGE range)) :
    pc + 1 < bytecode.length := by
  have := validProgram_at bytecode hv pc _ hget
  simpa [instValid] using this

theorem valid_fork (bytecode : List RegExpInstruction)
    (hv : validProgram bytecode = true) (pc : Nat) (target : Nat)
    (hget : bytecode.get? pc = some (.FORK target)) :
    pc + 1 < bytecode.length ∧ target < bytecode.length := by
  have := validProgram_at bytecode hv pc _ hget
  simpa [instValid] using this

theorem valid_jmp (bytecode : List RegExpInstruction)
    (hv : validProgram bytecode = true) (pc : Nat) (target : Nat)
    (hget : bytecode.get? pc = some (.JMP target)) :
    target < bytecode.length := by
  have := validProgram_at bytecode hv pc _ hget
  simpa [instValid] using this

-- step equations for RunActiveThread

theorem RunActiveThread_processed_eq (bytecode : List RegExpInstruction)
    (fuel : Nat) (t : InterpreterThread) (s : NfaState)
    (hproc : IsPcProcessed s t.pc = true) :
    RunActiveThread bytecode (fuel + 1) t s = some s := by
  rw [RunActiveThread, if_pos hproc]

theorem RunActiveThread_consume_eq (bytecode : List RegExpInstruction)
    (fuel : Nat) (t : InterpreterThread) (s : NfaState) (range : Uc16Range)
    (hproc : IsPcProcessed s t.pc = false)
    (hget : bytecode.get? t.pc = some (.CONSUME_RANGE range)) :
    RunActiveThread bytecode (fuel + 1) t s =
      some { s with
        pc_last_input_index :=
          s.pc_last_input_index.set t.pc (s.input_index : Int)
        blocked_threads := s.blocked_threads ++ [t] } := by
  simp only [RunActiveThread, hproc, Bool.false_eq_true, if_false, hget,
    MarkPcProcessed]

theorem RunActiveThread_fork_eq (bytecode : List RegExpInstruction)
    (fuel : Nat) (t : InterpreterThread) (s : NfaState) (target : Nat)
    (hproc : IsPcProcessed s t.pc = false)
    (hget : bytecode.get? t.pc = some (.FORK target)) :
    RunActiveThread bytecode (fuel + 1) t s =
      RunActiveThread bytecode fuel ⟨t.pc + 1, t.match_begin⟩
        { s with
          pc_last_input_index :=
            s.pc_last_input_index.set t.pc (s.input_index : Int)
          active_threads := s.active_threads ++ [⟨target, t.match_begin⟩] } := by
  simp only [RunActiveThread, hproc, Bool.false_eq_true, if_false, hget,
    MarkPcProcessed]

theorem RunActiveThread_jmp_eq (bytecode : List RegExpInstruction)
    (fuel : Nat) (t : InterpreterThread) (s : NfaState) (target : Nat)
    (hproc : IsPcProcessed s t.pc = false)
    (hget : bytecode.get? t.pc = some (.JMP target)) :
    RunActiveThread bytecode (fuel + 1) t s =
      RunActiveThread bytecode fuel ⟨target, t.match_begin⟩
        { s with
          pc_last_input_index :=
            s.pc_last_input_index.set t.pc (s.input_index : Int) } := by
  simp only [RunActiveThread, hproc, Bool.false_eq_true, if_false, hget,
    MarkPcProcessed]

theorem RunActiveThread_accept_eq (bytecode : List RegExpInstruction)
    (fuel : Nat) (t : InterpreterThread) (s : NfaState)
    (hproc : IsPcProcessed s t.pc = false)
    (hget : bytecode.get? t.pc = some .ACCEPT) :
    RunActiveThread bytecode (fuel + 1) t s =
      some { s with
        pc_last_input_index :=
          s.pc_last_input_index.set t.pc (s.input_index : Int)
        best_match := some ⟨t.match_begin, s.input_index⟩
        active_threads := [] } := by
  simp only [RunActiveThread, hproc, Bool.false_eq_true, if_false, hget,
    MarkPcProcessed]

-- dedup table lemmas

theorem isPcProcessed_mark_self (s : NfaState) (pc : Nat)
    (hpc : pc < s.pc_last_input_index.length) :
    IsPcProcessed (MarkPcProcessed s pc) pc = true := by
  simp [IsPcProcessed, MarkPcProcessed, List.getD_eq_getD_get?,
    List.get?_eq_getElem?, List.getElem?_set_eq_of_lt _ hpc]

theorem isPcProcessed_mark_ne (s : NfaState) (pc pc' : Nat) (hne : pc ≠ pc') :
    IsPcProcessed (MarkPcProcessed s pc) pc' = IsPcProcessed s pc' := by
  simp [IsPcProcessed, MarkPcProcessed, List.getD_eq_getD_get?,
    List.get?_eq_getElem?, List.getElem?_set_ne hne]

theorem countP_range_mark (n pc : Nat) (p q : Nat → Bool) (hpc : pc < n)
    (hq : q pc = false) (hp : p pc = true)
    (hother : ∀ x, x ≠ pc → q x = p x) :
    (List.range n).countP q + 1 = (List.range n).countP p := by
  induction n with
  | zero => omega
  | succ m ih =>
    rw [List.range_succ, List.countP_append, List.countP_append]
    by_cases hcase : pc = m
    · subst hcase
      have hcongr : (List.range pc).countP q = (List.range pc).countP p :=
        List.countP_congr (fun x hx => by
          rw [hother x (by have := List.mem_range.mp hx; omega)])
      simp [List.countP_cons, hq, hp, hcongr]
    · have hm : q m = p m := hother m (Ne.symm hcase)
      have := ih (by omega)
      simp only [List.countP_cons, List.countP_nil, hm]
      omega

theorem unmarkedCount_le (bytecode : List RegExpInstruction) (s : NfaState) :
    unmarkedCount bytecode s ≤ bytecode.length := by
  have := List.countP_le_length (fun pc => !IsPcProcessed s pc)
    (l := List.range bytecode.length)
  simpa [unmarkedCount, List.length_range] using this

theorem unmarkedCount_mark (bytecode : List RegExpInstruction) (s : NfaState)
    (pc : Nat) (hlen : s.pc_last_input_index.length = bytecode.length)
    (hpc : pc < bytecode.length) (hun : IsPcProcessed s pc = false) :
    unmarkedCount bytecode (MarkPcProcessed s pc) + 1 =
      unmarkedCount bytecode s := by
  apply countP_range_mark bytecode.length pc _ _ hpc
  · simp [isPcProcessed_mark_self s pc (by omega)]
  · simp [hun]
  · intro x hx
    simp [isPcProcessed_mark_ne s pc x hx.symm]

theorem WfState_mark (bytecode : List RegExpInstruction) (s : NfaState)
    (pc : Nat) (hwf : WfState bytecode s) :
    WfState bytecode (MarkPcProcessed s pc) := by
  refine ⟨?_, ?_, hwf.active_pc, hwf.blocked_consume⟩
  · simp [MarkPcProcessed, List.length_set, hwf.table_len]
  · intro v hv
    rcases List.mem_or_eq_of_mem_set hv with h | h
    · exact hwf.table_le v h
    · simp [h, MarkPcProcessed]

theorem BoundInv_mark (idx0 : Nat) (s : NfaState) (pc : Nat)
    (hbi : BoundInv idx0 s) : BoundInv idx0 (MarkPcProcessed s pc) :=
  ⟨hbi.idx_le, hbi.active_begin, hbi.blocked_begin, hbi.best_le⟩



theorem RunActiveThread_total (bytecode : List RegExpInstruction) (idx0 : Nat)
    (hv : validProgram bytecode = true) :
    ∀ fuel (t : InterpreterThread) (s : NfaState),
    WfState bytecode s → BoundInv idx0 s →
    t.pc < bytecode.length →
    idx0 ≤ t.match_begin → t.match_begin ≤ s.input_index →
    unmarkedCount bytecode s + 1 ≤ fuel →
    ∃ s', RunActiveThread bytecode fuel t s = some s' ∧
      WfState bytecode s' ∧ BoundInv idx0 s' ∧
      s'.input_index = s.input_index ∧
      s'.active_threads.length + unmarkedCount bytecode s' ≤
        s.active_threads.length + unmarkedCount bytecode s := by
  intro fuel
  induction fuel with
  | zero => intro t s _ _ _ _ _ hfuel; omega
  | succ n ih =>
    intro t s hwf hbi hpc hb1 hb2 hfuel
    by_cases hproc : IsPcProcessed s t.pc
    · exact ⟨s, RunActiveThread_processed_eq bytecode n t s hproc, hwf, hbi,
        rfl, le_refl _⟩
    · have hproc' : IsPcProcessed s t.pc = false := Bool.eq_false_iff.mpr hproc
      have hcount := unmarkedCount_mark bytecode s t.pc hwf.table_len hpc hproc'
      rcases hget : bytecode.get? t.pc with _ | inst
      · exact absurd (List.get?_eq_none.mp hget) (by omega)
      have htbllen : (s.pc_last_input_index.set t.pc
          (s.input_index : Int)).length = bytecode.length := by
        rw [List.length_set, hwf.table_len]
      have htblle : ∀ v ∈ s.pc_last_input_index.set t.pc (s.input_index : Int),
          v ≤ (s.input_index : Int) := by
        intro v hvv
        rcases List.mem_or_eq_of_mem_set hvv with h | h
        · exact hwf.table_le v h
        · simp [h]
      cases inst with
      | CONSUME_RANGE range =>
        refine ⟨_, RunActiveThread_consume_eq bytecode n t s range hproc' hget,
          ⟨htbllen, htblle, hwf.active_pc, ?_⟩,
          ⟨hbi.idx_le, hbi.active_begin, ?_, hbi.best_le⟩, rfl, ?_⟩
        · intro t' ht'
          rcases List.mem_append.mp ht' with h | h
          · exact hwf.blocked_consume t' h
          · rw [List.mem_singleton.mp h]
            exact ⟨range, hget⟩
        · intro t' ht'
          rcases List.mem_append.mp ht' with h | h
          · exact hbi.blocked_begin t' h
          · rw [List.mem_singleton.mp h]
            exact ⟨hb1, hb2⟩
        · have hm : unmarkedCount bytecode
              { s with
                pc_last_input_index :=
                  s.pc_last_input_index.set t.pc (s.input_index : Int)
                blocked_threads := s.blocked_threads ++ [t] } =
              unmarkedCount bytecode (MarkPcProcessed s t.pc) := rfl
          have ha : ({ s with
              pc_last_input_index :=
                s.pc_last_input_index.set t.pc (s.input_index : Int)
              blocked_threads := s.blocked_threads ++ [t] } :
              NfaState).active_threads.length = s.active_threads.length := rfl
          omega
      | FORK target =>
        obtain ⟨hpc1, htgt⟩ := valid_fork bytecode hv t.pc target hget
        have hwfmid : WfState bytecode
            { s with
              pc_last_input_index :=
                s.pc_last_input_index.set t.pc (s.input_index : Int)
              active_threads :=
                s.active_threads ++ [⟨target, t.match_begin⟩] } := by
          refine ⟨htbllen, htblle, ?_, hwf.blocked_consume⟩
          intro t' ht'
          rcases List.mem_append.mp ht' with h | h
          · exact hwf.active_pc t' h
          · rw [List.mem_singleton.mp h]
            exact htgt
        have hbimid : BoundInv idx0
            { s with
              pc_last_input_index :=
                s.pc_last_input_index.set t.pc (s.input_index : Int)
              active_threads :=
                s.active_threads ++ [⟨target, t.match_begin⟩] } := by
          refine ⟨hbi.idx_le, ?_, hbi.blocked_begin, hbi.best_le⟩
          intro t' ht'
          rcases List.mem_append.mp ht' with h | h
          · exact hbi.active_begin t' h
          · rw [List.mem_singleton.mp h]
            exact ⟨hb1, hb2⟩
        have hmid : unmarkedCount bytecode
            { s with
              pc_last_input_index :=
                s.pc_last_input_index.set t.pc (s.input_index : Int)
              active_threads :=
                s.active_threads ++ [⟨target, t.match_begin⟩] } =
            unmarkedCount bytecode (MarkPcProcessed s t.pc) := rfl
        obtain ⟨s', hrun', hwf', hbi', hidx', hmeas'⟩ :=
          ih ⟨t.pc + 1, t.match_begin⟩ _ hwfmid hbimid hpc1 hb1 hb2
            (by omega)
        refine ⟨s', ?_, hwf', hbi', hidx', ?_⟩
        · rw [RunActiveThread_fork_eq bytecode n t s target hproc' hget]
          exact hrun'
        · have hlenmid : ({ s with
              pc_last_input_index :=
                s.pc_last_input_index.set t.pc (s.input_index : Int)
              active_threads :=
                s.active_threads ++
                  [(⟨target, t.match_begin⟩ : InterpreterThread)] } :
              NfaState).active_threads.length =
              s.active_threads.length + 1 := by
            simp
          omega
      | JMP target =>
        have htgt := valid_jmp bytecode hv t.pc target hget
        have hwfmid : WfState bytecode
            { s with
              pc_last_input_index :=
                s.pc_last_input_index.set t.pc (s.input_index : Int) } :=
          ⟨htbllen, htblle, hwf.active_pc, hwf.blocked_consume⟩
        have hbimid : BoundInv idx0
            { s with
              pc_last_input_index :=
                s.pc_last_input_index.set t.pc (s.input_index : Int) } :=
          ⟨hbi.idx_le, hbi.active_begin, hbi.blocked_begin, hbi.best_le⟩
        have hmid : unmarkedCount bytecode
            { s with
              pc_last_input_index :=
                s.pc_last_input_index.set t.pc (s.input_index : Int) } =
            unmarkedCount bytecode (MarkPcProcessed s t.pc) := rfl
        obtain ⟨s', hrun', hwf', hbi', hidx', hmeas'⟩ :=
          ih ⟨target, t.match_begin⟩ _ hwfmid hbimid htgt hb1 hb2 (by omega)
        have ha : ({ s with
            pc_last_input_index :=
              s.pc_last_input_index.set t.pc (s.input_index : Int) } :
            NfaState).active_threads.length = s.active_threads.length := rfl
        refine ⟨s', ?_, hwf', hbi', hidx', by omega⟩
        rw [RunActiveThread_jmp_eq bytecode n t s target hproc' hget]
        exact hrun'
      | ACCEPT =>
        refine ⟨_, RunActiveThread_accept_eq bytecode n t s hproc' hget,
          ⟨htbllen, htblle, by simp, hwf.blocked_consume⟩,
          ⟨hbi.idx_le, by simp, hbi.blocked_begin, ?_⟩, rfl, ?_⟩
        · intro m hm
          rw [Option.mem_def, Option.some_inj] at hm
          subst hm
          exact ⟨hb1, hb2, le_refl _⟩
        · have hm : unmarkedCount bytecode
              { s with
                pc_last_input_index :=
                  s.pc_last_input_index.set t.pc (s.input_index : Int)
                best_match := some ⟨t.match_begin, s.input_index⟩
                active_threads := [] } =
              unmarkedCount bytecode (MarkPcProcessed s t.pc) := rfl
          have ha : ({ s with
              pc_last_input_index :=
                s.pc_last_input_index.set t.pc (s.input_index : Int)
              best_match := some ⟨t.match_begin, s.input_index⟩
              active_threads := [] } :
              NfaState).active_threads.length = 0 := rfl
          omega



theorem RunActiveThreadsFuel_total (bytecode : List RegExpInstruction)
    (idx0 : Nat) (hv : validProgram bytecode = true) :
    ∀ fuel (s : NfaState), WfState bytecode s → BoundInv idx0 s →
    s.active_threads.length + unmarkedCount bytecode s + 1 ≤ fuel →
    ∃ s', RunActiveThreadsFuel bytecode fuel s = some s' ∧
      WfState bytecode s' ∧ BoundInv idx0 s' ∧
      s'.input_index = s.input_index ∧ s'.active_threads = [] := by
  intro fuel
  induction fuel with
  | zero => intro s _ _ hfuel; omega
  | succ n ih =>
    intro s hwf hbi hfuel
    rcases hact : s.active_threads.getLast? with _ | t
    · have hnil : s.active_threads = [] := List.getLast?_eq_none_iff.mp hact
      refine ⟨s, ?_, hwf, hbi, rfl, hnil⟩
      rw [RunActiveThreadsFuel, hact]
    · have hne : s.active_threads ≠ [] := by
        intro hcontra
        rw [hcontra] at hact
        simp at hact
      have hsplit : s.active_threads.dropLast ++ [t] = s.active_threads := by
        have h1 := List.dropLast_append_getLast hne
        have h2 : s.active_threads.getLast hne = t := by
          have := List.getLast?_eq_getLast s.active_threads hne
          rw [this] at hact
          exact Option.some_inj.mp hact
        rw [h2] at h1
        exact h1
      have htmem : t ∈ s.active_threads := by
        rw [← hsplit]
        exact List.mem_append_right _ (List.mem_singleton_self t)
      have hwfpop : WfState bytecode
          { s with active_threads := s.active_threads.dropLast } := by
        refine ⟨hwf.table_len, hwf.table_le, ?_, hwf.blocked_consume⟩
        intro t' ht'
        exact hwf.active_pc t' ((List.dropLast_sublist s.active_threads).mem ht')
      have hbipop : BoundInv idx0
          { s with active_threads := s.active_threads.dropLast } := by
        refine ⟨hbi.idx_le, ?_, hbi.blocked_begin, hbi.best_le⟩
        intro t' ht'
        exact hbi.active_begin t'
          ((List.dropLast_sublist s.active_threads).mem ht')
      have hum : unmarkedCount bytecode
          { s with active_threads := s.active_threads.dropLast } =
          unmarkedCount bytecode s := rfl
      have hlendrop : s.active_threads.dropLast.length =
          s.active_threads.length - 1 := List.length_dropLast s.active_threads
      have hlenpos : 0 < s.active_threads.length := List.length_pos.mpr hne
      obtain ⟨s2, hrun2, hwf2, hbi2, hidx2, hmeas2⟩ :=
        RunActiveThread_total bytecode idx0 hv (bytecode.length + 1) t
          { s with active_threads := s.active_threads.dropLast }
          hwfpop hbipop (hwf.active_pc t htmem)
          (hbi.active_begin t htmem).1
          (hbi.active_begin t htmem).2
          (by
            have := unmarkedCount_le bytecode
              { s with active_threads := s.active_threads.dropLast }
            omega)
      have hadrop : ({ s with active_threads := s.active_threads.dropLast } :
          NfaState).active_threads.length = s.active_threads.dropLast.length :=
        rfl
      obtain ⟨s', hrun', hwf', hbi', hidx', hact'⟩ :=
        ih s2 hwf2 hbi2 (by omega)
      refine ⟨s', ?_, hwf', hbi', ?_, hact'⟩
      · simp only [RunActiveThreadsFuel, hact, hrun2]
        exact hrun'
      · rw [hidx', hidx2]

theorem RunActiveThreads_total (bytecode : List RegExpInstruction)
    (idx0 : Nat) (hv : validProgram bytecode = true) (s : NfaState)
    (hwf : WfState bytecode s) (hbi : BoundInv idx0 s) :
    ∃ s', RunActiveThreads bytecode s = some s' ∧
      WfState bytecode s' ∧ BoundInv idx0 s' ∧
      s'.input_index = s.input_index ∧ s'.active_threads = [] := by
  apply RunActiveThreadsFuel_total bytecode idx0 hv _ s hwf hbi
  have := unmarkedCount_le bytecode s
  omega

theorem flushThread_some (bytecode : List RegExpInstruction)
    (input_char : Nat) (t t' : InterpreterThread)
    (h : flushThread bytecode input_char t = some t') :
    t' = ⟨t.pc + 1, t.match_begin⟩ ∧
    ∃ range, bytecode.get? t.pc = some (.CONSUME_RANGE range) := by
  rw [flushThread] at h
  rcases hget : bytecode.get? t.pc with _ | inst
  · rw [hget] at h
    exact absurd h (by simp)
  · rw [hget] at h
    cases inst with
    | CONSUME_RANGE range =>
      have hif : (if range.min ≤ input_char ∧ input_char ≤ range.max
          then some (⟨t.pc + 1, t.match_begin⟩ : InterpreterThread)
          else none) = some t' := h
      by_cases hc : range.min ≤ input_char ∧ input_char ≤ range.max
      · rw [if_pos hc] at hif
        exact ⟨(Option.some_inj.mp hif).symm, range, rfl⟩
      · rw [if_neg hc] at hif
        exact absurd hif (by simp)
    | FORK target => exact absurd h (by simp)
    | JMP target => exact absurd h (by simp)
    | ACCEPT => exact absurd h (by simp)

theorem FlushBlockedThreads_total (bytecode : List RegExpInstruction)
    (idx0 : Nat) (hv : validProgram bytecode = true) (input_char : Nat)
    (s : NfaState) (hwf : WfState bytecode s) (hbi : BoundInv idx0 s) :
    WfState bytecode (FlushBlockedThreads bytecode input_char s) ∧
    BoundInv idx0 (FlushBlockedThreads bytecode input_char s) ∧
    (FlushBlockedThreads bytecode input_char s).input_index = s.input_index ∧
    (FlushBlockedThreads bytecode input_char s).blocked_threads = [] := by
  refine ⟨⟨hwf.table_len, hwf.table_le, ?_, by simp [FlushBlockedThreads]⟩,
    ⟨hbi.idx_le, ?_, by simp [FlushBlockedThreads], hbi.best_le⟩, rfl, rfl⟩
  · intro t' ht'
    simp only [FlushBlockedThreads] at ht'
    rcases List.mem_append.mp ht' with h | h
    · exact hwf.active_pc t' h
    · obtain ⟨t, htmem, hflush⟩ := List.mem_filterMap.mp h
      obtain ⟨rfl, range, hget⟩ :=
        flushThread_some bytecode input_char t t' hflush
      exact valid_consume bytecode hv t.pc range hget
  · intro t' ht'
    simp only [FlushBlockedThreads] at ht'
    rcases List.mem_append.mp ht' with h | h
    · exact hbi.active_begin t' h
    · obtain ⟨t, htmem, hflush⟩ := List.mem_filterMap.mp h
      obtain ⟨rfl, range, hget⟩ :=
        flushThread_some bytecode input_char t t' hflush
      exact hbi.blocked_begin t (List.mem_reverse.mp htmem)



theorem BoundInv_bump (idx0 : Nat) (s : NfaState) (hbi : BoundInv idx0 s) :
    BoundInv idx0 { s with input_index := s.input_index + 1 } := by
  have h0 := hbi.idx_le
  refine ⟨show idx0 ≤ s.input_index + 1 by omega, ?_, ?_, ?_⟩
  · intro t ht
    have h := hbi.active_begin t ht
    exact ⟨h.1, show t.match_begin ≤ s.input_index + 1 by omega⟩
  · intro t ht
    have h := hbi.blocked_begin t ht
    exact ⟨h.1, show t.match_begin ≤ s.input_index + 1 by omega⟩
  · intro m hm
    have h := hbi.best_le m hm
    exact ⟨h.1, h.2.1, show m.«end» ≤ s.input_index + 1 by omega⟩

theorem WfState_bump (bytecode : List RegExpInstruction) (s : NfaState)
    (hwf : WfState bytecode s) :
    WfState bytecode { s with input_index := s.input_index + 1 } := by
  refine ⟨hwf.table_len, ?_, hwf.active_pc, hwf.blocked_consume⟩
  intro v hv
  have h1 := hwf.table_le v hv
  show v ≤ ((s.input_index + 1 : Nat) : Int)
  have h2 : ((s.input_index : Int)) ≤ ((s.input_index + 1 : Nat) : Int) := by
    push_cast
    omega
  exact le_trans h1 h2

theorem FindNextMatchLoop_total (bytecode : List RegExpInstruction)
    (input : List Nat) (idx0 : Nat) (hv : validProgram bytecode = true) :
    ∀ fuel (s : NfaState), WfState bytecode s → BoundInv idx0 s →
    s.input_index ≤ input.length →
    input.length - s.input_index ≤ fuel →
    ∃ s', FindNextMatchLoop bytecode input fuel s = some s' ∧
      WfState bytecode s' ∧ BoundInv idx0 s' ∧
      s'.input_index ≤ input.length := by
  intro fuel
  induction fuel with
  | zero =>
    intro s hwf hbi hidx hfuel
    have heq : s.input_index = input.length := by omega
    exact ⟨s, FindNextMatchLoop_exit bytecode input 0 s
      (fun hc => hc.1 heq), hwf, hbi, hidx⟩
  | succ n ih =>
    intro s hwf hbi hidx hfuel
    by_cases hcond : (s.input_index ≠ input.length ∧
        ¬(s.best_match.isSome ∧ s.blocked_threads.isEmpty))
    · have hlt : s.input_index < input.length :=
        lt_of_le_of_ne hidx hcond.1
      by_cases hbest : s.best_match.isSome
      · -- no fresh seed
        have hwfA : WfState bytecode
            { s with input_index := s.input_index + 1 } :=
          WfState_bump bytecode s hwf
        have hbiA : BoundInv idx0
            { s with input_index := s.input_index + 1 } :=
          BoundInv_bump idx0 s hbi
        obtain ⟨hwfF, hbiF, hidxF, -⟩ :=
          FlushBlockedThreads_total bytecode idx0 hv
            (input.getD s.input_index 0)
            { s with input_index := s.input_index + 1 } hwfA hbiA
        obtain ⟨s4, hs4, hwf4, hbi4, hidx4, -⟩ :=
          RunActiveThreads_total bytecode idx0 hv
            (FlushBlockedThreads bytecode (input.getD s.input_index 0)
              { s with input_index := s.input_index + 1 }) hwfF hbiF
        have hidx4' : s4.input_index = s.input_index + 1 := by
          rw [hidx4, hidxF]
        obtain ⟨s', hs', hwf', hbi', hidx'⟩ :=
          ih s4 hwf4 hbi4 (by omega) (by omega)
        refine ⟨s', ?_, hwf', hbi', hidx'⟩
        rw [FindNextMatchLoop, if_pos hcond]
        simp only [hbest, if_true, hs4]
        exact hs'
      · -- seed a fresh lowest-priority thread
        have hbest' : s.best_match.isSome = false :=
          Bool.eq_false_iff.mpr hbest
        have hwfB : WfState bytecode
            { s with
              input_index := s.input_index + 1
              active_threads :=
                s.active_threads ++ [⟨0, s.input_index + 1⟩] } := by
          obtain ⟨h1, h2, h3, h4⟩ := WfState_bump bytecode s hwf
          refine ⟨h1, h2, ?_, h4⟩
          intro t ht
          rcases List.mem_append.mp ht with h | h
          · exact hwf.active_pc t h
          · rw [List.mem_singleton.mp h]
            exact validProgram_pos bytecode hv
        have hbiB : BoundInv idx0
            { s with
              input_index := s.input_index + 1
              active_threads :=
                s.active_threads ++ [⟨0, s.input_index + 1⟩] } := by
          obtain ⟨h1, h2, h3, h4⟩ := BoundInv_bump idx0 s hbi
          have h0 := hbi.idx_le
          refine ⟨h1, ?_, h3, h4⟩
          intro t ht
          rcases List.mem_append.mp ht with h | h
          · exact h2 t h
          · rw [List.mem_singleton.mp h]
            exact ⟨show idx0 ≤ s.input_index + 1 by omega,
              show s.input_index + 1 ≤ s.input_index + 1 by omega⟩
        obtain ⟨hwfF, hbiF, hidxF, -⟩ :=
          FlushBlockedThreads_total bytecode idx0 hv
            (input.getD s.input_index 0)
            { s with
              input_index := s.input_index + 1
              active_threads :=
                s.active_threads ++ [⟨0, s.input_index + 1⟩] } hwfB hbiB
        obtain ⟨s4, hs4, hwf4, hbi4, hidx4, -⟩ :=
          RunActiveThreads_total bytecode idx0 hv
            (FlushBlockedThreads bytecode (input.getD s.input_index 0)
              { s with
                input_index := s.input_index + 1
                active_threads :=
                  s.active_threads ++ [⟨0, s.input_index + 1⟩] }) hwfF hbiF
        have hidx4' : s4.input_index = s.input_index + 1 := by
          rw [hidx4, hidxF]
        obtain ⟨s', hs', hwf', hbi', hidx'⟩ :=
          ih s4 hwf4 hbi4 (by omega) (by omega)
        refine ⟨s', ?_, hwf', hbi', hidx'⟩
        rw [FindNextMatchLoop, if_pos hcond]
        simp only [hbest', Bool.false_eq_true, if_false, hs4]
        exact hs'
    · exact ⟨s, FindNextMatchLoop_exit bytecode input (n + 1) s hcond,
        hwf, hbi, hidx⟩

theorem initialState_wf (bytecode : List RegExpInstruction) (idx : Nat)
    (hv : validProgram bytecode = true) :
    WfState bytecode (initialState bytecode idx) ∧
    BoundInv idx (initialState bytecode idx) := by
  constructor
  · refine ⟨by simp [initialState], ?_, ?_, by simp [initialState]⟩
    · intro v hv'
      simp only [initialState] at hv'
      have := List.eq_of_mem_replicate hv'
      subst this
      simp [initialState]
      omega
    · intro t ht
      simp only [initialState, List.mem_singleton] at ht
      subst ht
      exact validProgram_pos bytecode hv
  · refine ⟨le_refl _, ?_, by simp [initialState], by simp [initialState]⟩
    intro t ht
    simp only [initialState, List.mem_singleton] at ht
    subst ht
    exact ⟨le_refl _, le_refl _⟩

theorem FindNextMatch_total (bytecode : List RegExpInstruction)
    (input : List Nat) (idx : Nat) (hv : validProgram bytecode = true)
    (hidx : idx ≤ input.length) :
    ∃ mo idx', FindNextMatch bytecode input idx = some (mo, idx') ∧
      idx' ≤ input.length ∧
      ∀ m ∈ mo, idx ≤ m.«begin» ∧ m.«begin» ≤ m.«end» ∧
        m.«end» ≤ input.length := by
  obtain ⟨hwf0, hbi0⟩ := initialState_wf bytecode idx hv
  obtain ⟨s1, hs1, hwf1, hbi1, hidx1, -⟩ :=
    RunActiveThreads_total bytecode idx hv (initialState bytecode idx)
      hwf0 hbi0
  have hidx1' : s1.input_index = idx := hidx1
  obtain ⟨s2, hs2, hwf2, hbi2, hidx2⟩ :=
    FindNextMatchLoop_total bytecode input idx hv
      (input.length - idx) s1 hwf1 hbi1 (by omega) (by omega)
  refine ⟨s2.best_match, s2.input_index, ?_, hidx2, ?_⟩
  · simp only [FindNextMatch, hs1, hs2]
  · intro m hm
    have := hbi2.best_le m hm
    exact ⟨this.1, this.2.1, by omega⟩



theorem FindMatches_cons (bytecode : List RegExpInstruction)
    (input : List Nat) (idx maxNum : Nat) (b : MatchRange)
    (rest : List MatchRange)
    (h : FindMatches bytecode input idx maxNum = some (b :: rest)) :
    ∃ k, FindNextMatch bytecode input idx = some (some b, k) := by
  cases maxNum with
  | zero => exact absurd h (by simp [FindMatches])
  | succ n =>
    rw [FindMatches] at h
    rcases hF : FindNextMatch bytecode input idx with _ | ⟨mo, k⟩
    · rw [hF] at h
      exact absurd h (by simp)
    · rw [hF] at h
      cases mo with
      | none => exact absurd h (by simp)
      | some m =>
        have hm : (FindMatches bytecode input m.«end» n).map (m :: ·) =
            some (b :: rest) := h
        rcases hrec : FindMatches bytecode input m.«end» n with _ | out'
        · rw [hrec] at hm
          exact absurd hm (by simp)
        · rw [hrec] at hm
          have : m :: out' = b :: rest := Option.some_inj.mp hm
          have hb : m = b := (List.cons_eq_cons.mp this).1
          exact ⟨k, by rw [← hb]⟩

theorem FindMatches_spec (bytecode : List RegExpInstruction)
    (input : List Nat) (hv : validProgram bytecode = true) :
    ∀ maxNum idx, idx ≤ input.length →
    ∃ out, FindMatches bytecode input idx maxNum = some out ∧
      out.length ≤ maxNum ∧
      (∀ m ∈ out, idx ≤ m.«begin» ∧ m.«begin» ≤ m.«end» ∧
        m.«end» ≤ input.length) ∧
      List.Chain' (fun a b => a.«end» ≤ b.«begin» ∧
        ∃ k, FindNextMatch bytecode input a.«end» = some (some b, k)) out := by
  intro maxNum
  induction maxNum with
  | zero =>
    intro idx _
    exact ⟨[], rfl, by simp, by simp, List.chain'_nil⟩
  | succ n ih =>
    intro idx hidx
    obtain ⟨mo, idx', hF, hidx', hmo⟩ :=
      FindNextMatch_total bytecode input idx hv hidx
    cases mo with
    | none =>
      refine ⟨[], ?_, by simp, by simp, List.chain'_nil⟩
      simp only [FindMatches, hF]
    | some m =>
      obtain ⟨hmb, hme, hml⟩ := hmo m (by simp)
      obtain ⟨out', hrec, hlen', hbounds', hchain'⟩ := ih m.«end» hml
      refine ⟨m :: out', ?_, by simp [hlen'], ?_, ?_⟩
      · simp only [FindMatches, hF, hrec, Option.map_some']
      · intro t ht
        rcases List.mem_cons.mp ht with h | h
        · subst h
          exact ⟨hmb, hme, hml⟩
        · obtain ⟨h1, h2, h3⟩ := hbounds' t h
          exact ⟨by omega, h2, h3⟩
      · cases out' with
        | nil => simp
        | cons b rest =>
          rw [List.chain'_cons]
          refine ⟨⟨(hbounds' b (by simp)).1, ?_⟩, hchain'⟩
          exact FindMatches_cons bytecode input m.«end» n b rest hrec



/-- C7: for every valid program — including programs whose `FORK` and `JMP`
instructions form cycles — every single-match search terminates: the
epsilon-closure drain `RunActiveThreads` always finishes (each PC is stepped
at most once per input index, since a thread whose PC is already recorded for
the current input index is dropped before decoding), and `FindNextMatch`
returns a result rather than exhausting its fuel. -/
theorem c7_termination (bytecode : List RegExpInstruction) (input : List Nat)
    (idx : Nat) (hv : validProgram bytecode = true)
    (hidx : idx ≤ input.length) :
    (∀ (idx0 : Nat) (s : NfaState), WfState bytecode s → BoundInv idx0 s →
      ∃ s', RunActiveThreads bytecode s = some s') ∧
    ∃ r, FindNextMatch bytecode input idx = some r := by
  constructor
  · intro idx0 s hwf hbi
    obtain ⟨s', hs', -⟩ := RunActiveThreads_total bytecode idx0 hv s hwf hbi
    exact ⟨s', hs'⟩
  · obtain ⟨mo, idx', h, -, -⟩ :=
      FindNextMatch_total bytecode input idx hv hidx
    exact ⟨(mo, idx'), h⟩

/-- Witness for C7 on a concrete cyclic program (`FORK` into a `JMP` cycle). -/
theorem c7_termination_witness :
    ∃ r, FindNextMatch [RegExpInstruction.FORK 2, RegExpInstruction.JMP 0,
      RegExpInstruction.ACCEPT] [97] 0 = some r :=
  (c7_termination [RegExpInstruction.FORK 2, RegExpInstruction.JMP 0,
    RegExpInstruction.ACCEPT] [97] 0 (by decide) (by decide)).2

/-- C2: for every valid program, input, start offset `idx ≤ input.length`
and `maxNum`, `FindMatches` returns a list `out` with `out.length ≤ maxNum`,
containing successive matches in input order: every match satisfies
`idx ≤ begin ≤ end ≤ input.length`, consecutive matches satisfy
`out[i].end ≤ out[i+1].begin`, and the search that produced match `i+1`
began at input cursor `out[i].end`. -/
theorem c2_find_matches (bytecode : List RegExpInstruction)
    (input : List Nat) (idx maxNum : Nat)
    (hv : validProgram bytecode = true) (hidx : idx ≤ input.length) :
    ∃ out, FindMatches bytecode input idx maxNum = some out ∧
      out.length ≤ maxNum ∧
      (∀ m ∈ out, idx ≤ m.«begin» ∧ m.«begin» ≤ m.«end» ∧
        m.«end» ≤ input.length) ∧
      List.Chain' (fun a b => a.«end» ≤ b.«begin» ∧
        ∃ k, FindNextMatch bytecode input a.«end» = some (some b, k)) out :=
  FindMatches_spec bytecode input hv maxNum idx hidx

/-- Witness for C2 at a concrete program, input and match count. -/
theorem c2_find_matches_witness :
    ∃ out, FindMatches [RegExpInstruction.CONSUME_RANGE ⟨97, 97⟩,
        RegExpInstruction.ACCEPT] [97, 98, 97] 0 3 = some out ∧
      out.length ≤ 3 ∧
      (∀ m ∈ out, 0 ≤ m.«begin» ∧ m.«begin» ≤ m.«end» ∧ m.«end» ≤ 3) ∧
      List.Chain' (fun a b => a.«end» ≤ b.«begin» ∧
        ∃ k, FindNextMatch [RegExpInstruction.CONSUME_RANGE ⟨97, 97⟩,
          RegExpInstruction.ACCEPT] [97, 98, 97] a.«end» =
            some (some b, k)) out := by
  have h := c2_find_matches [RegExpInstruction.CONSUME_RANGE ⟨97, 97⟩,
    RegExpInstruction.ACCEPT] [97, 98, 97] 0 3 (by decide) (by decide)
  simpa using h

end ExperimentalRegExp

namespace ExperimentalRegExp


-- agreement of the checked model with the plain model

theorem mapSnd_fst (o : Option (NfaState × Bool)) (c : Bool) :
    (o.map (fun r => (r.1, c && r.2))).map Prod.fst = o.map Prod.fst := by
  cases o with
  | none => rfl
  | some r => rfl

theorem RunActiveThreadC_fst (bytecode : List RegExpInstruction) :
    ∀ fuel t s, (RunActiveThreadC bytecode fuel t s).map Prod.fst =
      RunActiveThread bytecode fuel t s := by
  intro fuel
  induction fuel with
  | zero => intro t s; rfl
  | succ n ih =>
    intro t s
    rw [RunActiveThreadC, RunActiveThread]
    by_cases hproc : IsPcProcessed s t.pc
    · rw [if_pos hproc, if_pos hproc]
      rfl
    · rw [if_neg hproc, if_neg hproc]
      rcases hget : bytecode.get? t.pc with _ | inst
      · simp only [hget]
        rfl
      · cases inst with
        | CONSUME_RANGE range =>
          simp only [hget]
          rfl
        | FORK target =>
          simp only [hget]
          rw [mapSnd_fst]
          exact ih _ _
        | JMP target =>
          simp only [hget]
          rw [mapSnd_fst]
          exact ih _ _
        | ACCEPT =>
          simp only [hget]
          rfl

theorem RunActiveThreadsCFuel_fst (bytecode : List RegExpInstruction) :
    ∀ fuel s, (RunActiveThreadsCFuel bytecode fuel s).map Prod.fst =
      RunActiveThreadsFuel bytecode fuel s := by
  intro fuel
  induction fuel with
  | zero =>
    intro s
    rw [RunActiveThreadsCFuel, RunActiveThreadsFuel]
    by_cases h : s.active_threads.isEmpty <;> simp [h]
  | succ n ih =>
    intro s
    rcases hlast : s.active_threads.getLast? with _ | t
    · simp only [RunActiveThreadsCFuel, RunActiveThreadsFuel, hlast]
      rfl
    · have hagree := RunActiveThreadC_fst bytecode (bytecode.length + 1) t
        { s with active_threads := s.active_threads.dropLast }
      rcases hC : RunActiveThreadC bytecode (bytecode.length + 1) t
          { s with active_threads := s.active_threads.dropLast } with _ | r
      · rw [hC] at hagree
        have hplain : RunActiveThread bytecode (bytecode.length + 1) t
            { s with active_threads := s.active_threads.dropLast } = none := by
          simpa using hagree.symm
        simp only [RunActiveThreadsCFuel, RunActiveThreadsFuel, hlast, hC,
          hplain, Option.map_none']
      · rw [hC] at hagree
        rcases r with ⟨s2, ok2⟩
        have hplain : RunActiveThread bytecode (bytecode.length + 1) t
            { s with active_threads := s.active_threads.dropLast } =
            some s2 := by
          simpa using hagree.symm
        simp only [RunActiveThreadsCFuel, RunActiveThreadsFuel, hlast, hC,
          hplain]
        rw [mapSnd_fst]
        exact ih s2

theorem RunActiveThreadsC_fst (bytecode : List RegExpInstruction)
    (s : NfaState) :
    (RunActiveThreadsC bytecode s).map Prod.fst =
      RunActiveThreads bytecode s :=
  RunActiveThreadsCFuel_fst bytecode _ s

theorem FindNextMatchLoopC_fst (bytecode : List RegExpInstruction)
    (input : List Nat) :
    ∀ fuel s, (FindNextMatchLoopC bytecode input fuel s).map Prod.fst =
      FindNextMatchLoop bytecode input fuel s := by
  intro fuel
  induction fuel with
  | zero =>
    intro s
    rw [FindNextMatchLoopC, FindNextMatchLoop]
    by_cases h : (s.input_index ≠ input.length ∧
        ¬(s.best_match.isSome ∧ s.blocked_threads.isEmpty))
    · rw [if_pos h, if_pos h]
      rfl
    · rw [if_neg h, if_neg h]
      rfl
  | succ n ih =>
    intro s
    by_cases h : (s.input_index ≠ input.length ∧
        ¬(s.best_match.isSome ∧ s.blocked_threads.isEmpty))
    · by_cases hbest : s.best_match.isSome
      · have hagree := RunActiveThreadsC_fst bytecode
          (FlushBlockedThreads bytecode (input.getD s.input_index 0)
            { s with input_index := s.input_index + 1 })
        rcases hC : RunActiveThreadsC bytecode
            (FlushBlockedThreads bytecode (input.getD s.input_index 0)
              { s with input_index := s.input_index + 1 }) with _ | r
        · rw [hC] at hagree
          have hplain : RunActiveThreads bytecode
              (FlushBlockedThreads bytecode (input.getD s.input_index 0)
                { s with input_index := s.input_index + 1 }) = none := by
            simpa using hagree.symm
          rw [FindNextMatchLoopC, FindNextMatchLoop, if_pos h, if_pos h]
          simp only [hbest, if_true, hC, hplain, Option.map_none']
        · rw [hC] at hagree
          rcases r with ⟨s4, ok4⟩
          have hplain : RunActiveThreads bytecode
              (FlushBlockedThreads bytecode (input.getD s.input_index 0)
                { s with input_index := s.input_index + 1 }) = some s4 := by
            simpa using hagree.symm
          rw [FindNextMatchLoopC, FindNextMatchLoop, if_pos h, if_pos h]
          simp only [hbest, if_true, hC, hplain]
          rw [mapSnd_fst]
          exact ih s4
      · have hbest' : s.best_match.isSome = false :=
          Bool.eq_false_iff.mpr hbest
        have hagree := RunActiveThreadsC_fst bytecode
          (FlushBlockedThreads bytecode (input.getD s.input_index 0)
            { s with
              input_index := s.input_index + 1
              active_threads :=
                s.active_threads ++ [⟨0, s.input_index + 1⟩] })
        rcases hC : RunActiveThreadsC bytecode
            (FlushBlockedThreads bytecode (input.getD s.input_index 0)
              { s with
                input_index := s.input_index + 1
                active_threads :=
                  s.active_threads ++ [⟨0, s.input_index + 1⟩] }) with _ | r
        · rw [hC] at hagree
          have hplain : RunActiveThreads bytecode
              (FlushBlockedThreads bytecode (input.getD s.input_index 0)
                { s with
                  input_index := s.input_index + 1
                  active_threads :=
                    s.active_threads ++ [⟨0, s.input_index + 1⟩] }) =
              none := by
            simpa using hagree.symm
          rw [FindNextMatchLoopC, FindNextMatchLoop, if_pos h, if_pos h]
          simp only [hbest', Bool.false_eq_true, if_false, hC, hplain,
            Option.map_none']
        · rw [hC] at hagree
          rcases r with ⟨s4, ok4⟩
          have hplain : RunActiveThreads bytecode
              (FlushBlockedThreads bytecode (input.getD s.input_index 0)
                { s with
                  input_index := s.input_index + 1
                  active_threads :=
                    s.active_threads ++ [⟨0, s.input_index + 1⟩] }) =
              some s4 := by
            simpa using hagree.symm
          rw [FindNextMatchLoopC, FindNextMatchLoop, if_pos h, if_pos h]
          simp only [hbest', Bool.false_eq_true, if_false, hC, hplain]
          rw [mapSnd_fst]
          exact ih s4
    · rw [FindNextMatchLoopC, FindNextMatchLoop, if_neg h, if_neg h]
      rfl

theorem FindNextMatchC_fst (bytecode : List RegExpInstruction)
    (input : List Nat) (input_index : Nat) :
    (FindNextMatchC bytecode input input_index).map Prod.fst =
      FindNextMatch bytecode input input_index := by
  have hagree := RunActiveThreadsC_fst bytecode
    (initialState bytecode input_index)
  rcases hC : RunActiveThreadsC bytecode (initialState bytecode input_index)
      with _ | r1
  · rw [hC] at hagree
    have hplain : RunActiveThreads bytecode
        (initialState bytecode input_index) = none := by
      simpa using hagree.symm
    simp only [FindNextMatchC, FindNextMatch, hC, hplain, Option.map_none']
  · rw [hC] at hagree
    rcases r1 with ⟨s1, ok1⟩
    have hplain : RunActiveThreads bytecode
        (initialState bytecode input_index) = some s1 := by
      simpa using hagree.symm
    have hagree2 := FindNextMatchLoopC_fst bytecode input
      (input.length - input_index) s1
    rcases hL : FindNextMatchLoopC bytecode input
        (input.length - input_index) s1 with _ | r2
    · rw [hL] at hagree2
      have hplain2 : FindNextMatchLoop bytecode input
          (input.length - input_index) s1 = none := by
        simpa using hagree2.symm
      simp only [FindNextMatchC, FindNextMatch, hC, hplain, hL, hplain2,
        Option.map_none']
    · rw [hL] at hagree2
      rcases r2 with ⟨s2, ok2⟩
      have hplain2 : FindNextMatchLoop bytecode input
          (input.length - input_index) s1 = some s2 := by
        simpa using hagree2.symm
      simp only [FindNextMatchC, FindNextMatch, hC, hplain, hL, hplain2]
      rfl

end ExperimentalRegExp

namespace ExperimentalRegExp

-- counting lemmas for the size bounds

theorem unmarkedCountP_le (p : RegExpInstruction → Bool)
    (bytecode : List RegExpInstruction) (s : NfaState) :
    unmarkedCountP p bytecode s ≤ rangeCountP p bytecode :=
  List.countP_mono_left (fun x _ hx => by
    simp only [Bool.and_eq_true] at hx
    exact hx.1)

theorem rangeCountP_le (p : RegExpInstruction → Bool)
    (bytecode : List RegExpInstruction) :
    rangeCountP p bytecode ≤ bytecode.length := by
  have := List.countP_le_length
    (fun pc => p (bytecode.getD pc .ACCEPT)) (l := List.range bytecode.length)
  simpa [rangeCountP, List.length_range] using this

theorem unmarkedCountP_fresh (p : RegExpInstruction → Bool)
    (bytecode : List RegExpInstruction) (s : NfaState)
    (h : ∀ pc, pc < bytecode.length → IsPcProcessed s pc = false) :
    unmarkedCountP p bytecode s = rangeCountP p bytecode :=
  List.countP_congr (fun x hx => by
    rw [h x (List.mem_range.mp hx)]
    simp)

theorem unmarkedCountP_mark_true (p : RegExpInstruction → Bool)
    (bytecode : List RegExpInstruction) (s : NfaState) (pc : Nat)
    (hlen : s.pc_last_input_index.length = bytecode.length)
    (hpc : pc < bytecode.length) (hun : IsPcProcessed s pc = false)
    (hp : p (bytecode.getD pc .ACCEPT) = true) :
    unmarkedCountP p bytecode (MarkPcProcessed s pc) + 1 =
      unmarkedCountP p bytecode s := by
  apply countP_range_mark bytecode.length pc _ _ hpc
  · rw [isPcProcessed_mark_self s pc (by omega)]
    simp
  · simp only [hun, Bool.not_false, Bool.and_true]
    exact hp
  · intro x hx
    simp [isPcProcessed_mark_ne s pc x hx.symm]

theorem unmarkedCountP_mark_false (p : RegExpInstruction → Bool)
    (bytecode : List RegExpInstruction) (s : NfaState) (pc : Nat)
    (hp : p (bytecode.getD pc .ACCEPT) = false) :
    unmarkedCountP p bytecode (MarkPcProcessed s pc) =
      unmarkedCountP p bytecode s := by
  apply List.countP_congr
  intro x hx
  by_cases hxpc : x = pc
  · subst hxpc
    simp only [hp, Bool.false_and]
  · simp [isPcProcessed_mark_ne s pc x (fun h => hxpc h.symm)]

theorem countP_add_le (l : List RegExpInstruction)
    (p q : RegExpInstruction → Bool)
    (hdisj : ∀ x, ¬(p x = true ∧ q x = true)) :
    l.countP p + l.countP q ≤ l.length := by
  induction l with
  | nil => simp
  | cons a l ih =>
    rw [List.countP_cons, List.countP_cons, List.length_cons]
    by_cases hp : p a = true
    · have hq : q a = false := by
        by_cases h : q a = true
        · exact absurd ⟨hp, h⟩ (hdisj a)
        · exact Bool.eq_false_iff.mpr h
      simp only [hp, hq, if_pos, Bool.false_eq_true, if_false]
      omega
    · have hp' : p a = false := Bool.eq_false_iff.mpr hp
      simp only [hp', Bool.false_eq_true, if_false]
      by_cases hq : q a = true
      · simp only [hq, if_pos]
        omega
      · have hq' : q a = false := Bool.eq_false_iff.mpr hq
        simp only [hq', Bool.false_eq_true, if_false]
        omega

theorem valid_fork_consume_count (bytecode : List RegExpInstruction)
    (hv : validProgram bytecode = true) :
    rangeCountP isFORKb bytecode + rangeCountP isCONSUMEb bytecode + 1 ≤
      bytecode.length := by
  have hpos := validProgram_pos bytecode hv
  obtain ⟨m, hm⟩ : ∃ m, bytecode.length = m + 1 :=
    ⟨bytecode.length - 1, by omega⟩
  rcases hgl : bytecode.get? m with _ | lastInst
  · have := List.get?_eq_none.mp hgl
    omega
  have hlast := validProgram_at bytecode hv m lastInst hgl
  have hgd : bytecode.getD m .ACCEPT = lastInst := by
    rw [List.getD_eq_getD_get?, hgl, Option.getD_some]
  have hnf : isFORKb (bytecode.getD m .ACCEPT) = false := by
    rw [hgd]
    cases lastInst with
    | FORK target =>
      simp only [instValid, hm] at hlast
      simp only [Bool.and_eq_true, decide_eq_true_eq] at hlast
      omega
    | CONSUME_RANGE range => rfl
    | JMP target => rfl
    | ACCEPT => rfl
  have hnc : isCONSUMEb (bytecode.getD m .ACCEPT) = false := by
    rw [hgd]
    cases lastInst with
    | CONSUME_RANGE range =>
      simp only [instValid, hm] at hlast
      simp only [decide_eq_true_eq] at hlast
      omega
    | FORK target => rfl
    | JMP target => rfl
    | ACCEPT => rfl
  have hdisj : ∀ x : RegExpInstruction,
      ¬(isFORKb x = true ∧ isCONSUMEb x = true) := by
    intro x
    cases x <;> simp [isFORKb, isCONSUMEb]
  have hsum := countP_add_le ((List.range m).map
    (fun pc => bytecode.getD pc .ACCEPT)) isFORKb isCONSUMEb hdisj
  rw [List.countP_map, List.countP_map, List.length_map,
    List.length_range] at hsum
  have hsplit : ∀ p : RegExpInstruction → Bool,
      rangeCountP p bytecode =
        (List.range m).countP (fun pc => p (bytecode.getD pc .ACCEPT)) +
          (if p (bytecode.getD m .ACCEPT) = true then 1 else 0) := by
    intro p
    rw [rangeCountP, hm, List.range_succ, List.countP_append]
    congr 1
    rw [List.countP_cons, List.countP_nil]
    omega
  rw [hsplit isFORKb, hsplit isCONSUMEb, hnf, hnc]
  simp only [Bool.false_eq_true, if_false]
  have hcomp : ∀ p : RegExpInstruction → Bool,
      (List.range m).countP ((fun pc => p (bytecode.getD pc .ACCEPT))) =
      (List.range m).countP (p ∘ (fun pc => bytecode.getD pc .ACCEPT)) :=
    fun p => rfl
  rw [← hcomp isFORKb, ← hcomp isCONSUMEb] at hsum
  omega

end ExperimentalRegExp

namespace ExperimentalRegExp


theorem DrainInv_stateOk (bytecode : List RegExpInstruction) (s : NfaState)
    (h : DrainInv bytecode s) : stateOk bytecode s = true := by
  have h1 : s.active_threads.length ≤ bytecode.length := by
    have := h.jbound
    omega
  have h2 : s.blocked_threads.length ≤ bytecode.length := by
    have ha := h.bbound
    have hb := rangeCountP_le isCONSUMEb bytecode
    omega
  simp [stateOk, h1, h2, h.blocked_nodup]

theorem RunActiveThreadC_processed_eq (bytecode : List RegExpInstruction)
    (fuel : Nat) (t : InterpreterThread) (s : NfaState)
    (hproc : IsPcProcessed s t.pc = true) :
    RunActiveThreadC bytecode (fuel + 1) t s =
      some (s, stateOk bytecode s) := by
  rw [RunActiveThreadC, if_pos hproc]

theorem RunActiveThreadC_consume_eq (bytecode : List RegExpInstruction)
    (fuel : Nat) (t : InterpreterThread) (s : NfaState) (range : Uc16Range)
    (hproc : IsPcProcessed s t.pc = false)
    (hget : bytecode.get? t.pc = some (.CONSUME_RANGE range)) :
    RunActiveThreadC bytecode (fuel + 1) t s =
      some ({ s with
          pc_last_input_index :=
            s.pc_last_input_index.set t.pc (s.input_index : Int)
          blocked_threads := s.blocked_threads ++ [t] },
        stateOk bytecode s &&
          stateOk bytecode { s with
            pc_last_input_index :=
              s.pc_last_input_index.set t.pc (s.input_index : Int)
            blocked_threads := s.blocked_threads ++ [t] }) := by
  simp only [RunActiveThreadC, hproc, Bool.false_eq_true, if_false, hget,
    MarkPcProcessed]

theorem RunActiveThreadC_fork_eq (bytecode : List RegExpInstruction)
    (fuel : Nat) (t : InterpreterThread) (s : NfaState) (target : Nat)
    (hproc : IsPcProcessed s t.pc = false)
    (hget : bytecode.get? t.pc = some (.FORK target)) :
    RunActiveThreadC bytecode (fuel + 1) t s =
      (RunActiveThreadC bytecode fuel ⟨t.pc + 1, t.match_begin⟩
        { s with
          pc_last_input_index :=
            s.pc_last_input_index.set t.pc (s.input_index : Int)
          active_threads :=
            s.active_threads ++ [⟨target, t.match_begin⟩] }).map
        (fun r => (r.1, stateOk bytecode s && r.2)) := by
  simp only [RunActiveThreadC, hproc, Bool.false_eq_true, if_false, hget,
    MarkPcProcessed]

theorem RunActiveThreadC_jmp_eq (bytecode : List RegExpInstruction)
    (fuel : Nat) (t : InterpreterThread) (s : NfaState) (target : Nat)
    (hproc : IsPcProcessed s t.pc = false)
    (hget : bytecode.get? t.pc = some (.JMP target)) :
    RunActiveThreadC bytecode (fuel + 1) t s =
      (RunActiveThreadC bytecode fuel ⟨target, t.match_begin⟩
        { s with
          pc_last_input_index :=
            s.pc_last_input_index.set t.pc (s.input_index : Int) }).map
        (fun r => (r.1, stateOk bytecode s && r.2)) := by
  simp only [RunActiveThreadC, hproc, Bool.false_eq_true, if_false, hget,
    MarkPcProcessed]

theorem RunActiveThreadC_accept_eq (bytecode : List RegExpInstruction)
    (fuel : Nat) (t : InterpreterThread) (s : NfaState)
    (hproc : IsPcProcessed s t.pc = false)
    (hget : bytecode.get? t.pc = some .ACCEPT) :
    RunActiveThreadC bytecode (fuel + 1) t s =
      some ({ s with
          pc_last_input_index :=
            s.pc_last_input_index.set t.pc (s.input_index : Int)
          best_match := some ⟨t.match_begin, s.input_index⟩
          active_threads := [] },
        stateOk bytecode s &&
          stateOk bytecode { s with
            pc_last_input_index :=
              s.pc_last_input_index.set t.pc (s.input_index : Int)
            best_match := some ⟨t.match_begin, s.input_index⟩
            active_threads := [] }) := by
  simp only [RunActiveThreadC, hproc, Bool.false_eq_true, if_false, hget,
    MarkPcProcessed]

end ExperimentalRegExp

namespace ExperimentalRegExp

theorem blocked_marked_after_mark (s : NfaState) (pc : Nat)
    (hpc : pc < s.pc_last_input_index.length)
    (hm : ∀ t ∈ s.blocked_threads, IsPcProcessed s t.pc = true) :
    ∀ t ∈ s.blocked_threads,
      IsPcProcessed (MarkPcProcessed s pc) t.pc = true := by
  intro t ht
  by_cases hx : t.pc = pc
  · rw [hx]
    exact isPcProcessed_mark_self s pc hpc
  · rw [isPcProcessed_mark_ne s pc t.pc (fun h => hx h.symm)]
    exact hm t ht

theorem RunActiveThreadC_ok (bytecode : List RegExpInstruction)
    (hv : validProgram bytecode = true) :
    ∀ fuel (t : InterpreterThread) (s : NfaState) (r : NfaState × Bool),
    s.pc_last_input_index.length = bytecode.length →
    DrainInv bytecode s → t.pc < bytecode.length →
    RunActiveThreadC bytecode fuel t s = some r →
    DrainInv bytecode r.1 ∧ r.2 = true ∧
    r.1.pc_last_input_index.length = bytecode.length ∧
    r.1.input_index = s.input_index := by
  intro fuel
  induction fuel with
  | zero =>
    intro t s r _ _ _ hrun
    exact absurd hrun (by simp [RunActiveThreadC])
  | succ n ih =>
    intro t s r htlen hdi hpc hrun
    by_cases hproc : IsPcProcessed s t.pc
    · rw [RunActiveThreadC_processed_eq bytecode n t s hproc] at hrun
      obtain rfl := Option.some_inj.mp hrun.symm
      exact ⟨hdi, DrainInv_stateOk bytecode s hdi, htlen, rfl⟩
    · have hproc' : IsPcProcessed s t.pc = false := Bool.eq_false_iff.mpr hproc
      have hpctbl : t.pc < s.pc_last_input_index.length := by omega
      rcases hget : bytecode.get? t.pc with _ | inst
      · exact absurd (List.get?_eq_none.mp hget) (by omega)
      have hgd : bytecode.getD t.pc .ACCEPT = inst := by
        rw [List.getD_eq_getD_get?, hget, Option.getD_some]
      cases inst with
      | CONSUME_RANGE range =>
        rw [RunActiveThreadC_consume_eq bytecode n t s range hproc' hget]
          at hrun
        obtain rfl := Option.some_inj.mp hrun.symm
        have hFcount : unmarkedCountP isFORKb bytecode
            { s with
              pc_last_input_index :=
                s.pc_last_input_index.set t.pc (s.input_index : Int)
              blocked_threads := s.blocked_threads ++ [t] } =
            unmarkedCountP isFORKb bytecode s := by
          have : unmarkedCountP isFORKb bytecode
              { s with
                pc_last_input_index :=
                  s.pc_last_input_index.set t.pc (s.input_index : Int)
                blocked_threads := s.blocked_threads ++ [t] } =
              unmarkedCountP isFORKb bytecode (MarkPcProcessed s t.pc) := rfl
          rw [this]
          exact unmarkedCountP_mark_false isFORKb bytecode s t.pc
            (by rw [hgd]; rfl)
        have hCcount : unmarkedCountP isCONSUMEb bytecode
            { s with
              pc_last_input_index :=
                s.pc_last_input_index.set t.pc (s.input_index : Int)
              blocked_threads := s.blocked_threads ++ [t] } + 1 =
            unmarkedCountP isCONSUMEb bytecode s := by
          have : unmarkedCountP isCONSUMEb bytecode
              { s with
                pc_last_input_index :=
                  s.pc_last_input_index.set t.pc (s.input_index : Int)
                blocked_threads := s.blocked_threads ++ [t] } =
              unmarkedCountP isCONSUMEb bytecode (MarkPcProcessed s t.pc) :=
            rfl
          rw [this]
          exact unmarkedCountP_mark_true isCONSUMEb bytecode s t.pc htlen hpc
            hproc' (by rw [hgd]; rfl)
        have hdi' : DrainInv bytecode
            { s with
              pc_last_input_index :=
                s.pc_last_input_index.set t.pc (s.input_index : Int)
              blocked_threads := s.blocked_threads ++ [t] } := by
          refine ⟨?_, ?_, ?_, ?_⟩
          · intro t' ht'
            show IsPcProcessed (MarkPcProcessed s t.pc) t'.pc = true
            rcases List.mem_append.mp ht' with h | h
            · exact blocked_marked_after_mark s t.pc hpctbl
                hdi.blocked_marked t' h
            · rw [List.mem_singleton.mp h]
              exact isPcProcessed_mark_self s t.pc hpctbl
          · show ((s.blocked_threads ++ [t]).map InterpreterThread.pc).Nodup
            rw [List.map_append, List.nodup_append]
            refine ⟨hdi.blocked_nodup, by simp, ?_⟩
            rw [List.map_singleton, List.disjoint_singleton]
            intro hmem
            obtain ⟨t'', ht''mem, ht''pc⟩ := List.mem_map.mp hmem
            have := hdi.blocked_marked t'' ht''mem
            rw [ht''pc] at this
            exact absurd this (by rw [hproc']; simp)
          · have ha : ({ s with
                pc_last_input_index :=
                  s.pc_last_input_index.set t.pc (s.input_index : Int)
                blocked_threads := s.blocked_threads ++ [t] } :
                NfaState).active_threads.length =
                s.active_threads.length := rfl
            have := hdi.jbound
            omega
          · have hb : ({ s with
                pc_last_input_index :=
                  s.pc_last_input_index.set t.pc (s.input_index : Int)
                blocked_threads := s.blocked_threads ++ [t] } :
                NfaState).blocked_threads.length =
                s.blocked_threads.length + 1 := by
              simp
            have := hdi.bbound
            omega
        refine ⟨hdi', ?_, by simp [List.length_set, htlen], rfl⟩
        show (stateOk bytecode s && stateOk bytecode _) = true
        rw [Bool.and_eq_true]
        exact ⟨DrainInv_stateOk bytecode s hdi, DrainInv_stateOk bytecode _
          hdi'⟩
      | FORK target =>
        obtain ⟨hpc1, htgt⟩ := valid_fork bytecode hv t.pc target hget
        rw [RunActiveThreadC_fork_eq bytecode n t s target hproc' hget] at hrun
        rcases hR : RunActiveThreadC bytecode n ⟨t.pc + 1, t.match_begin⟩
            { s with
              pc_last_input_index :=
                s.pc_last_input_index.set t.pc (s.input_index : Int)
              active_threads :=
                s.active_threads ++ [⟨target, t.match_begin⟩] } with _ | r2
        · rw [hR] at hrun
          exact absurd hrun (by simp)
        · rw [hR] at hrun
          simp only [Option.map_some'] at hrun
          obtain rfl := Option.some_inj.mp hrun.symm
          have hdi2 : DrainInv bytecode
              { s with
                pc_last_input_index :=
                  s.pc_last_input_index.set t.pc (s.input_index : Int)
                active_threads :=
                  s.active_threads ++ [⟨target, t.match_begin⟩] } := by
            refine ⟨?_, hdi.blocked_nodup, ?_, ?_⟩
            · intro t' ht'
              exact blocked_marked_after_mark s t.pc hpctbl
                hdi.blocked_marked t' ht'
            · have ha : ({ s with
                  pc_last_input_index :=
                    s.pc_last_input_index.set t.pc (s.input_index : Int)
                  active_threads := s.active_threads ++
                    [(⟨target, t.match_begin⟩ : InterpreterThread)] } :
                  NfaState).active_threads.length =
                  s.active_threads.length + 1 := by
                simp
              have hFcount : unmarkedCountP isFORKb bytecode
                  { s with
                    pc_last_input_index :=
                      s.pc_last_input_index.set t.pc (s.input_index : Int)
                    active_threads := s.active_threads ++
                      [(⟨target, t.match_begin⟩ : InterpreterThread)] } + 1 =
                  unmarkedCountP isFORKb bytecode s :=
                unmarkedCountP_mark_true isFORKb bytecode s t.pc htlen hpc
                  hproc' (by rw [hgd]; rfl)
              have := hdi.jbound
              omega
            · have hCcount : unmarkedCountP isCONSUMEb bytecode
                  { s with
                    pc_last_input_index :=
                      s.pc_last_input_index.set t.pc (s.input_index : Int)
                    active_threads := s.active_threads ++
                      [(⟨target, t.match_begin⟩ : InterpreterThread)] } =
                  unmarkedCountP isCONSUMEb bytecode s :=
                unmarkedCountP_mark_false isCONSUMEb bytecode s t.pc
                  (by rw [hgd]; rfl)
              have hbl : ({ s with
                  pc_last_input_index :=
                    s.pc_last_input_index.set t.pc (s.input_index : Int)
                  active_threads := s.active_threads ++
                    [(⟨target, t.match_begin⟩ : InterpreterThread)] } :
                  NfaState).blocked_threads.length =
                  s.blocked_threads.length := rfl
              have := hdi.bbound
              omega
          obtain ⟨hdiR, hokR, htlenR, hidxR⟩ :=
            ih ⟨t.pc + 1, t.match_begin⟩ _ r2
              (by simp [List.length_set, htlen]) hdi2 hpc1 hR
          refine ⟨hdiR, ?_, htlenR, hidxR⟩
          show (stateOk bytecode s && r2.2) = true
          rw [Bool.and_eq_true]
          exact ⟨DrainInv_stateOk bytecode s hdi, hokR⟩
      | JMP target =>
        have htgt := valid_jmp bytecode hv t.pc target hget
        rw [RunActiveThreadC_jmp_eq bytecode n t s target hproc' hget] at hrun
        rcases hR : RunActiveThreadC bytecode n ⟨target, t.match_begin⟩
            { s with
              pc_last_input_index :=
                s.pc_last_input_index.set t.pc (s.input_index : Int) }
            with _ | r2
        · rw [hR] at hrun
          exact absurd hrun (by simp)
        · rw [hR] at hrun
          simp only [Option.map_some'] at hrun
          obtain rfl := Option.some_inj.mp hrun.symm
          have hdi2 : DrainInv bytecode
              { s with
                pc_last_input_index :=
                  s.pc_last_input_index.set t.pc (s.input_index : Int) } := by
            refine ⟨?_, hdi.blocked_nodup, ?_, ?_⟩
            · intro t' ht'
              exact blocked_marked_after_mark s t.pc hpctbl
                hdi.blocked_marked t' ht'
            · have hFcount : unmarkedCountP isFORKb bytecode
                  { s with
                    pc_last_input_index :=
                      s.pc_last_input_index.set t.pc (s.input_index : Int) } =
                  unmarkedCountP isFORKb bytecode s :=
                unmarkedCountP_mark_false isFORKb bytecode s t.pc
                  (by rw [hgd]; rfl)
              have hal : ({ s with
                  pc_last_input_index :=
                    s.pc_last_input_index.set t.pc (s.input_index : Int) } :
                  NfaState).active_threads.length =
                  s.active_threads.length := rfl
              have := hdi.jbound
              omega
            · have hCcount : unmarkedCountP isCONSUMEb bytecode
                  { s with
                    pc_last_input_index :=
                      s.pc_last_input_index.set t.pc (s.input_index : Int) } =
                  unmarkedCountP isCONSUMEb bytecode s :=
                unmarkedCountP_mark_false isCONSUMEb bytecode s t.pc
                  (by rw [hgd]; rfl)
              have hbl : ({ s with
                  pc_last_input_index :=
                    s.pc_last_input_index.set t.pc (s.input_index : Int) } :
                  NfaState).blocked_threads.length =
                  s.blocked_threads.length := rfl
              have := hdi.bbound
              omega
          obtain ⟨hdiR, hokR, htlenR, hidxR⟩ :=
            ih ⟨target, t.match_begin⟩ _ r2
              (by simp [List.length_set, htlen]) hdi2 htgt hR
          refine ⟨hdiR, ?_, htlenR, hidxR⟩
          show (stateOk bytecode s && r2.2) = true
          rw [Bool.and_eq_true]
          exact ⟨DrainInv_stateOk bytecode s hdi, hokR⟩
      | ACCEPT =>
        rw [RunActiveThreadC_accept_eq bytecode n t s hproc' hget] at hrun
        obtain rfl := Option.some_inj.mp hrun.symm
        have hdi' : DrainInv bytecode
            { s with
              pc_last_input_index :=
                s.pc_last_input_index.set t.pc (s.input_index : Int)
              best_match := some ⟨t.match_begin, s.input_index⟩
              active_threads := [] } := by
          refine ⟨?_, hdi.blocked_nodup, ?_, ?_⟩
          · intro t' ht'
            exact blocked_marked_after_mark s t.pc hpctbl
              hdi.blocked_marked t' ht'
          · have hFcount : unmarkedCountP isFORKb bytecode
                { s with
                  pc_last_input_index :=
                    s.pc_last_input_index.set t.pc (s.input_index : Int)
                  best_match := some ⟨t.match_begin, s.input_index⟩
                  active_threads := ([] : List InterpreterThread) } =
                unmarkedCountP isFORKb bytecode s :=
              unmarkedCountP_mark_false isFORKb bytecode s t.pc
                (by rw [hgd]; rfl)
            have hal : ({ s with
                pc_last_input_index :=
                  s.pc_last_input_index.set t.pc (s.input_index : Int)
                best_match := some ⟨t.match_begin, s.input_index⟩
                active_threads := ([] : List InterpreterThread) } :
                NfaState).active_threads.length = 0 := rfl
            have := hdi.jbound
            omega
          · have hCcount : unmarkedCountP isCONSUMEb bytecode
                { s with
                  pc_last_input_index :=
                    s.pc_last_input_index.set t.pc (s.input_index : Int)
                  best_match := some ⟨t.match_begin, s.input_index⟩
                  active_threads := ([] : List InterpreterThread) } =
                unmarkedCountP isCONSUMEb bytecode s :=
              unmarkedCountP_mark_false isCONSUMEb bytecode s t.pc
                (by rw [hgd]; rfl)
            have hbl : ({ s with
                pc_last_input_index :=
                  s.pc_last_input_index.set t.pc (s.input_index : Int)
                best_match := some ⟨t.match_begin, s.input_index⟩
                active_threads := ([] : List InterpreterThread) } :
                NfaState).blocked_threads.length =
                s.blocked_threads.length := rfl
            have := hdi.bbound
            omega
        refine ⟨hdi', ?_, by simp [List.length_set, htlen], rfl⟩
        show (stateOk bytecode s && stateOk bytecode _) = true
        rw [Bool.and_eq_true]
        exact ⟨DrainInv_stateOk bytecode s hdi, DrainInv_stateOk bytecode _
          hdi'⟩

end ExperimentalRegExp

namespace ExperimentalRegExp

theorem RunActiveThreadsCFuel_ok (bytecode : List RegExpInstruction)
    (idx0 : Nat) (hv : validProgram bytecode = true) :
    ∀ fuel (s : NfaState) (r : NfaState × Bool),
    WfState bytecode s → BoundInv idx0 s → DrainInv bytecode s →
    RunActiveThreadsCFuel bytecode fuel s = some r →
    DrainInv bytecode r.1 ∧ r.2 = true ∧ WfState bytecode r.1 ∧
    BoundInv idx0 r.1 ∧ r.1.input_index = s.input_index ∧
    r.1.active_threads = [] := by
  intro fuel
  induction fuel with
  | zero =>
    intro s r hwf hbi hdi hrun
    rw [RunActiveThreadsCFuel] at hrun
    by_cases hA : s.active_threads.isEmpty
    · rw [if_pos hA] at hrun
      obtain rfl := Option.some_inj.mp hrun.symm
      exact ⟨hdi, DrainInv_stateOk bytecode s hdi, hwf, hbi, rfl,
        List.isEmpty_iff.mp hA⟩
    · rw [if_neg hA] at hrun
      exact absurd hrun (by simp)
  | succ n ih =>
    intro s r hwf hbi hdi hrun
    rcases hlast : s.active_threads.getLast? with _ | t
    · have hnil : s.active_threads = [] := List.getLast?_eq_none_iff.mp hlast
      rw [RunActiveThreadsCFuel] at hrun
      rw [hlast] at hrun
      obtain rfl := Option.some_inj.mp hrun.symm
      exact ⟨hdi, DrainInv_stateOk bytecode s hdi, hwf, hbi, rfl, hnil⟩
    · have hne : s.active_threads ≠ [] := by
        intro hcontra
        rw [hcontra] at hlast
        simp at hlast
      have htmem : t ∈ s.active_threads := by
        have h1 := List.dropLast_append_getLast hne
        have h2 : s.active_threads.getLast hne = t := by
          have := List.getLast?_eq_getLast s.active_threads hne
          rw [this] at hlast
          exact Option.some_inj.mp hlast
        rw [← h2]
        exact List.getLast_mem hne
      have hwfpop : WfState bytecode
          { s with active_threads := s.active_threads.dropLast } := by
        refine ⟨hwf.table_len, hwf.table_le, ?_, hwf.blocked_consume⟩
        intro t' ht'
        exact hwf.active_pc t'
          ((List.dropLast_sublist s.active_threads).mem ht')
      have hbipop : BoundInv idx0
          { s with active_threads := s.active_threads.dropLast } := by
        refine ⟨hbi.idx_le, ?_, hbi.blocked_begin, hbi.best_le⟩
        intro t' ht'
        exact hbi.active_begin t'
          ((List.dropLast_sublist s.active_threads).mem ht')
      have hdipop : DrainInv bytecode
          { s with active_threads := s.active_threads.dropLast } := by
        refine ⟨hdi.blocked_marked, hdi.blocked_nodup, ?_, hdi.bbound⟩
        have hld := List.length_dropLast s.active_threads
        have hal : ({ s with
            active_threads := s.active_threads.dropLast } :
            NfaState).active_threads.length =
            s.active_threads.dropLast.length := rfl
        have hum : unmarkedCountP isFORKb bytecode
            { s with active_threads := s.active_threads.dropLast } =
            unmarkedCountP isFORKb bytecode s := rfl
        have := hdi.jbound
        omega
      simp only [RunActiveThreadsCFuel, hlast] at hrun
      rcases hC : RunActiveThreadC bytecode (bytecode.length + 1) t
          { s with active_threads := s.active_threads.dropLast } with _ | r2
      · rw [hC] at hrun
        exact absurd hrun (by simp)
      · obtain ⟨s2, ok2⟩ := r2
        simp only [hC] at hrun
        obtain ⟨hdi2, hok2, htlen2, hidx2⟩ :=
          RunActiveThreadC_ok bytecode hv (bytecode.length + 1) t
            { s with active_threads := s.active_threads.dropLast } (s2, ok2)
            hwf.table_len hdipop (hwf.active_pc t htmem) hC
        -- transfer WfState/BoundInv via the plain run
        have hagree := RunActiveThreadC_fst bytecode (bytecode.length + 1) t
          { s with active_threads := s.active_threads.dropLast }
        rw [hC] at hagree
        have hplain : RunActiveThread bytecode (bytecode.length + 1) t
            { s with active_threads := s.active_threads.dropLast } =
            some s2 := by
          simpa using hagree.symm
        obtain ⟨s'', hrun'', hwf2, hbi2, hidx2', -⟩ :=
          RunActiveThread_total bytecode idx0 hv (bytecode.length + 1) t
            { s with active_threads := s.active_threads.dropLast }
            hwfpop hbipop (hwf.active_pc t htmem)
            (hbi.active_begin t htmem).1 (hbi.active_begin t htmem).2
            (by
              have := unmarkedCount_le bytecode
                { s with active_threads := s.active_threads.dropLast }
              omega)
        have hs'' : s'' = s2 := by
          rw [hrun''] at hplain
          exact Option.some_inj.mp hplain
        rw [hs''] at hwf2 hbi2 hidx2'
        rcases hR : RunActiveThreadsCFuel bytecode n s2 with _ | r3
        · rw [hR] at hrun
          exact absurd hrun (by simp)
        · rw [hR] at hrun
          simp only [Option.map_some'] at hrun
          obtain rfl := Option.some_inj.mp hrun.symm
          obtain ⟨hdi3, hok3, hwf3, hbi3, hidx3, hact3⟩ :=
            ih s2 r3 hwf2 hbi2 hdi2 hR
          refine ⟨hdi3, ?_, hwf3, hbi3, ?_, hact3⟩
          · show (stateOk bytecode s && ok2 && r3.2) = true
            rw [Bool.and_eq_true, Bool.and_eq_true]
            exact ⟨⟨DrainInv_stateOk bytecode s hdi, hok2⟩, hok3⟩
          · rw [hidx3, hidx2']

theorem RunActiveThreadsC_ok (bytecode : List RegExpInstruction)
    (idx0 : Nat) (hv : validProgram bytecode = true) (s : NfaState)
    (r : NfaState × Bool)
    (hwf : WfState bytecode s) (hbi : BoundInv idx0 s)
    (hdi : DrainInv bytecode s)
    (hrun : RunActiveThreadsC bytecode s = some r) :
    DrainInv bytecode r.1 ∧ r.2 = true ∧ WfState bytecode r.1 ∧
    BoundInv idx0 r.1 ∧ r.1.input_index = s.input_index ∧
    r.1.active_threads = [] :=
  RunActiveThreadsCFuel_ok bytecode idx0 hv _ s r hwf hbi hdi hrun

end ExperimentalRegExp

namespace ExperimentalRegExp

theorem isPcProcessed_fresh (s' : NfaState) (idxOld : Nat)
    (htab : ∀ v ∈ s'.pc_last_input_index, v ≤ (idxOld : Int))
    (hidx : idxOld < s'.input_index) (pc : Nat) :
    IsPcProcessed s' pc = false := by
  simp only [IsPcProcessed, decide_eq_false_iff_not]
  intro hcontra
  by_cases hlt : pc < s'.pc_last_input_index.length
  · have hmem : s'.pc_last_input_index.getD pc (-1) ∈
        s'.pc_last_input_index := by
      rw [List.getD_eq_getElem _ _ hlt]
      exact List.getElem_mem hlt
    have hle := htab _ hmem
    rw [hcontra] at hle
    omega
  · rw [List.getD_eq_default _ _ (by omega)] at hcontra
    omega

theorem stateOk_of (bytecode : List RegExpInstruction) (s : NfaState)
    (h1 : s.active_threads.length ≤ bytecode.length)
    (h2 : s.blocked_threads.length ≤ bytecode.length)
    (h3 : (s.blocked_threads.map InterpreterThread.pc).Nodup) :
    stateOk bytecode s = true := by
  simp [stateOk, h1, h2, h3]

end ExperimentalRegExp

namespace ExperimentalRegExp

theorem FindNextMatchLoopC_ok (bytecode : List RegExpInstruction)
    (input : List Nat) (idx0 : Nat) (hv : validProgram bytecode = true) :
    ∀ fuel (s : NfaState) (r : NfaState × Bool),
    WfState bytecode s → BoundInv idx0 s →
    (s.blocked_threads.map InterpreterThread.pc).Nodup →
    s.blocked_threads.length ≤ rangeCountP isCONSUMEb bytecode →
    s.active_threads = [] →
    s.input_index ≤ input.length →
    FindNextMatchLoopC bytecode input fuel s = some r →
    r.2 = true := by
  have hCClen := rangeCountP_le isCONSUMEb bytecode
  have hLstar := valid_fork_consume_count bytecode hv
  intro fuel
  induction fuel with
  | zero =>
    intro s r hwf hbi hnd hbl hact hidx hrun
    rw [FindNextMatchLoopC] at hrun
    by_cases h : (s.input_index ≠ input.length ∧
        ¬(s.best_match.isSome ∧ s.blocked_threads.isEmpty))
    · rw [if_pos h] at hrun
      exact absurd hrun (by simp)
    · rw [if_neg h] at hrun
      obtain rfl := Option.some_inj.mp hrun.symm
      exact stateOk_of bytecode s (by simp [hact]) (by omega) hnd
  | succ n ih =>
    intro s r hwf hbi hnd hbl hact hidx hrun
    by_cases h : (s.input_index ≠ input.length ∧
        ¬(s.best_match.isSome ∧ s.blocked_threads.isEmpty))
    · have hlt : s.input_index < input.length := lt_of_le_of_ne hidx h.1
      have hOkS : stateOk bytecode s = true :=
        stateOk_of bytecode s (by simp [hact]) (by omega) hnd
      rw [FindNextMatchLoopC, if_pos h] at hrun
      by_cases hbest : s.best_match.isSome
      · simp only [hbest, if_true] at hrun
        have hwfB : WfState bytecode
            { s with input_index := s.input_index + 1 } :=
          WfState_bump bytecode s hwf
        have hbiB : BoundInv idx0
            { s with input_index := s.input_index + 1 } :=
          BoundInv_bump idx0 s hbi
        obtain ⟨hwfF, hbiF, hidxF, hblkF⟩ :=
          FlushBlockedThreads_total bytecode idx0 hv
            (input.getD s.input_index 0)
            { s with input_index := s.input_index + 1 } hwfB hbiB
        have hOkB : stateOk bytecode
            { s with input_index := s.input_index + 1 } = true :=
          stateOk_of bytecode _ (by simp [hact]) (by simp; omega) hnd
        have hlenF : (FlushBlockedThreads bytecode (input.getD s.input_index 0)
            { s with input_index :=
                s.input_index + 1 }).active_threads.length ≤
            s.blocked_threads.length := by
          show (({ s with input_index := s.input_index + 1 } :
              NfaState).active_threads ++
            (({ s with input_index := s.input_index + 1 } :
                NfaState).blocked_threads.reverse.filterMap
              (flushThread bytecode (input.getD s.input_index 0)))).length ≤
            s.blocked_threads.length
          rw [List.length_append]
          have h1 : ({ s with input_index := s.input_index + 1 } :
              NfaState).active_threads.length = 0 := by simp [hact]
          have h2 := List.length_filterMap_le
            (flushThread bytecode (input.getD s.input_index 0))
            (({ s with input_index := s.input_index + 1 } :
                NfaState).blocked_threads.reverse)
          have h3 : (({ s with input_index := s.input_index + 1 } :
              NfaState).blocked_threads.reverse).length =
              s.blocked_threads.length := by simp
          omega
        have hfresh : ∀ pc, pc < bytecode.length →
            IsPcProcessed (FlushBlockedThreads bytecode
              (input.getD s.input_index 0)
              { s with input_index := s.input_index + 1 }) pc = false := by
          intro pc _
          apply isPcProcessed_fresh _ s.input_index
          · intro v hvmem
            exact hwf.table_le v hvmem
          · show s.input_index < s.input_index + 1
            omega
        have hdiF : DrainInv bytecode
            (FlushBlockedThreads bytecode (input.getD s.input_index 0)
              { s with input_index := s.input_index + 1 }) := by
          refine ⟨?_, ?_, ?_, ?_⟩
          · intro t' ht'
            simp only [FlushBlockedThreads] at ht'
            exact absurd ht' (List.not_mem_nil t')
          · show (([] : List InterpreterThread).map
              InterpreterThread.pc).Nodup
            simp
          · have hF := unmarkedCountP_fresh isFORKb bytecode _ hfresh
            rw [hF]
            omega
          · have hC := unmarkedCountP_fresh isCONSUMEb bytecode _ hfresh
            rw [hC]
            have hz : (FlushBlockedThreads bytecode
                (input.getD s.input_index 0)
                { s with input_index :=
                    s.input_index + 1 }).blocked_threads.length = 0 := by
              simp [FlushBlockedThreads]
            omega
        have hOkF : stateOk bytecode
            (FlushBlockedThreads bytecode (input.getD s.input_index 0)
              { s with input_index := s.input_index + 1 }) = true :=
          DrainInv_stateOk bytecode _ hdiF
        rcases hC : RunActiveThreadsC bytecode
            (FlushBlockedThreads bytecode (input.getD s.input_index 0)
              { s with input_index := s.input_index + 1 }) with _ | r4
        · rw [hC] at hrun
          exact absurd hrun (by simp)
        · obtain ⟨s4, ok4⟩ := r4
          simp only [hC] at hrun
          obtain ⟨hdi4, hok4, hwf4, hbi4, hidx4, hact4⟩ :=
            RunActiveThreadsC_ok bytecode idx0 hv _ (s4, ok4)
              hwfF hbiF hdiF hC
          have hidx4' : s4.input_index = s.input_index + 1 := by
            rw [hidx4, hidxF]
          rcases hR : FindNextMatchLoopC bytecode input n s4 with _ | r5
          · rw [hR] at hrun
            exact absurd hrun (by simp)
          · rw [hR] at hrun
            simp only [Option.map_some'] at hrun
            obtain rfl := Option.some_inj.mp hrun.symm
            have hok5 := ih s4 r5 hwf4 hbi4 hdi4.blocked_nodup
              (by have hb := hdi4.bbound
                  have hpe : ((s4, ok4) : NfaState × Bool).1 = s4 := rfl
                  rw [hpe] at hb
                  omega) hact4 (by omega) hR
            show (stateOk bytecode s && stateOk bytecode _ &&
              stateOk bytecode _ && ok4 && r5.2) = true
            simp only [Bool.and_eq_true]
            exact ⟨⟨⟨⟨hOkS, hOkB⟩, hOkF⟩, hok4⟩, hok5⟩
      · have hbest' : s.best_match.isSome = false :=
          Bool.eq_false_iff.mpr hbest
        simp only [hbest', Bool.false_eq_true, if_false] at hrun
        have hwfB : WfState bytecode
            { s with
              input_index := s.input_index + 1
              active_threads :=
                s.active_threads ++ [⟨0, s.input_index + 1⟩] } := by
          obtain ⟨h1, h2, h3, h4⟩ := WfState_bump bytecode s hwf
          refine ⟨h1, h2, ?_, h4⟩
          intro t ht
          rcases List.mem_append.mp ht with hmem | hmem
          · exact hwf.active_pc t hmem
          · rw [List.mem_singleton.mp hmem]
            exact validProgram_pos bytecode hv
        have hbiB : BoundInv idx0
            { s with
              input_index := s.input_index + 1
              active_threads :=
                s.active_threads ++ [⟨0, s.input_index + 1⟩] } := by
          obtain ⟨h1, h2, h3, h4⟩ := BoundInv_bump idx0 s hbi
          have h0 := hbi.idx_le
          refine ⟨h1, ?_, h3, h4⟩
          intro t ht
          rcases List.mem_append.mp ht with hmem | hmem
          · exact h2 t hmem
          · rw [List.mem_singleton.mp hmem]
            exact ⟨show idx0 ≤ s.input_index + 1 by omega,
              show s.input_index + 1 ≤ s.input_index + 1 by omega⟩
        obtain ⟨hwfF, hbiF, hidxF, hblkF⟩ :=
          FlushBlockedThreads_total bytecode idx0 hv
            (input.getD s.input_index 0)
            { s with
              input_index := s.input_index + 1
              active_threads :=
                s.active_threads ++ [⟨0, s.input_index + 1⟩] } hwfB hbiB
        have hOkB : stateOk bytecode
            { s with
              input_index := s.input_index + 1
              active_threads :=
                s.active_threads ++ [⟨0, s.input_index + 1⟩] } = true := by
          apply stateOk_of
          · have : ({ s with
                input_index := s.input_index + 1
                active_threads := s.active_threads ++
                  [(⟨0, s.input_index + 1⟩ : InterpreterThread)] } :
                NfaState).active_threads.length =
                s.active_threads.length + 1 := by simp
            have hpos := validProgram_pos bytecode hv
            rw [this, hact]
            simpa using hpos
          · show s.blocked_threads.length ≤ bytecode.length
            omega
          · exact hnd
        have hlenF : (FlushBlockedThreads bytecode (input.getD s.input_index 0)
            { s with
              input_index := s.input_index + 1
              active_threads :=
                s.active_threads ++
                  [⟨0, s.input_index + 1⟩] }).active_threads.length ≤
            s.blocked_threads.length + 1 := by
          show (({ s with
              input_index := s.input_index + 1
              active_threads := s.active_threads ++
                [(⟨0, s.input_index + 1⟩ : InterpreterThread)] } :
              NfaState).active_threads ++
            (({ s with
                input_index := s.input_index + 1
                active_threads := s.active_threads ++
                  [(⟨0, s.input_index + 1⟩ : InterpreterThread)] } :
                NfaState).blocked_threads.reverse.filterMap
              (flushThread bytecode (input.getD s.input_index 0)))).length ≤
            s.blocked_threads.length + 1
          rw [List.length_append]
          have h1 : ({ s with
              input_index := s.input_index + 1
              active_threads := s.active_threads ++
                [(⟨0, s.input_index + 1⟩ : InterpreterThread)] } :
              NfaState).active_threads.length =
              s.active_threads.length + 1 := by simp
          have h2 := List.length_filterMap_le
            (flushThread bytecode (input.getD s.input_index 0))
            (({ s with
                input_index := s.input_index + 1
                active_threads := s.active_threads ++
                  [(⟨0, s.input_index + 1⟩ : InterpreterThread)] } :
                NfaState).blocked_threads.reverse)
          have h3 : (({ s with
              input_index := s.input_index + 1
              active_threads := s.active_threads ++
                [(⟨0, s.input_index + 1⟩ : InterpreterThread)] } :
              NfaState).blocked_threads.reverse).length =
              s.blocked_threads.length := by simp
          have h0 : s.active_threads.length = 0 := by rw [hact]; rfl
          omega
        have hfresh : ∀ pc, pc < bytecode.length →
            IsPcProcessed (FlushBlockedThreads bytecode
              (input.getD s.input_index 0)
              { s with
                input_index := s.input_index + 1
                active_threads :=
                  s.active_threads ++ [⟨0, s.input_index + 1⟩] }) pc =
              false := by
          intro pc _
          apply isPcProcessed_fresh _ s.input_index
          · intro v hvmem
            exact hwf.table_le v hvmem
          · show s.input_index < s.input_index + 1
            omega
        have hdiF : DrainInv bytecode
            (FlushBlockedThreads bytecode (input.getD s.input_index 0)
              { s with
                input_index := s.input_index + 1
                active_threads :=
                  s.active_threads ++ [⟨0, s.input_index + 1⟩] }) := by
          refine ⟨?_, ?_, ?_, ?_⟩
          · intro t' ht'
            simp only [FlushBlockedThreads] at ht'
            exact absurd ht' (List.not_mem_nil t')
          · show (([] : List InterpreterThread).map
              InterpreterThread.pc).Nodup
            simp
          · have hF := unmarkedCountP_fresh isFORKb bytecode _ hfresh
            rw [hF]
            omega
          · have hCc := unmarkedCountP_fresh isCONSUMEb bytecode _ hfresh
            rw [hCc]
            have hz : (FlushBlockedThreads bytecode
                (input.getD s.input_index 0)
                { s with
                  input_index := s.input_index + 1
                  active_threads := s.active_threads ++
                    [⟨0, s.input_index + 1⟩] }).blocked_threads.length =
                0 := by
              simp [FlushBlockedThreads]
            omega
        have hOkF : stateOk bytecode
            (FlushBlockedThreads bytecode (input.getD s.input_index 0)
              { s with
                input_index := s.input_index + 1
                active_threads :=
                  s.active_threads ++ [⟨0, s.input_index + 1⟩] }) = true :=
          DrainInv_stateOk bytecode _ hdiF
        rcases hC : RunActiveThreadsC bytecode
            (FlushBlockedThreads bytecode (input.getD s.input_index 0)
              { s with
                input_index := s.input_index + 1
                active_threads :=
                  s.active_threads ++ [⟨0, s.input_index + 1⟩] }) with _ | r4
        · rw [hC] at hrun
          exact absurd hrun (by simp)
        · obtain ⟨s4, ok4⟩ := r4
          simp only [hC] at hrun
          obtain ⟨hdi4, hok4, hwf4, hbi4, hidx4, hact4⟩ :=
            RunActiveThreadsC_ok bytecode idx0 hv _ (s4, ok4)
              hwfF hbiF hdiF hC
          have hidx4' : s4.input_index = s.input_index + 1 := by
            rw [hidx4, hidxF]
          rcases hR : FindNextMatchLoopC bytecode input n s4 with _ | r5
          · rw [hR] at hrun
            exact absurd hrun (by simp)
          · rw [hR] at hrun
            simp only [Option.map_some'] at hrun
            obtain rfl := Option.some_inj.mp hrun.symm
            have hok5 := ih s4 r5 hwf4 hbi4 hdi4.blocked_nodup
              (by have hb := hdi4.bbound
                  have hpe : ((s4, ok4) : NfaState × Bool).1 = s4 := rfl
                  rw [hpe] at hb
                  omega) hact4 (by omega) hR
            show (stateOk bytecode s && stateOk bytecode _ &&
              stateOk bytecode _ && ok4 && r5.2) = true
            simp only [Bool.and_eq_true]
            exact ⟨⟨⟨⟨hOkS, hOkB⟩, hOkF⟩, hok4⟩, hok5⟩
    · rw [FindNextMatchLoopC, if_neg h] at hrun
      obtain rfl := Option.some_inj.mp hrun.symm
      exact stateOk_of bytecode s (by simp [hact]) (by omega) hnd

end ExperimentalRegExp

namespace ExperimentalRegExp

theorem DrainInv_initial (bytecode : List RegExpInstruction) (idx : Nat)
    (hv : validProgram bytecode = true) :
    DrainInv bytecode (initialState bytecode idx) := by
  have hfresh : ∀ pc, pc < bytecode.length →
      IsPcProcessed (initialState bytecode idx) pc = false := by
    intro pc _
    have h1 : (initialState bytecode idx).pc_last_input_index =
        List.replicate bytecode.length (-1) := rfl
    have h2 : (initialState bytecode idx).input_index = idx := rfl
    simp only [IsPcProcessed, h1, h2, decide_eq_false_iff_not]
    rw [getD_replicate]
    omega
  have hL := valid_fork_consume_count bytecode hv
  refine ⟨?_, ?_, ?_, ?_⟩
  · intro t ht
    exact absurd ht (by simp [initialState])
  · simp [initialState]
  · have hF := unmarkedCountP_fresh isFORKb bytecode _ hfresh
    have ha : (initialState bytecode idx).active_threads.length = 1 := rfl
    rw [hF, ha]
    omega
  · have hC := unmarkedCountP_fresh isCONSUMEb bytecode _ hfresh
    have hb : (initialState bytecode idx).blocked_threads.length = 0 := rfl
    rw [hC, hb]
    omega

theorem FindNextMatchC_ok (bytecode : List RegExpInstruction)
    (input : List Nat) (idx : Nat) (hv : validProgram bytecode = true)
    (hidx : idx ≤ input.length) :
    ∃ r : Option MatchRange × Nat,
      FindNextMatchC bytecode input idx = some (r, true) ∧
      FindNextMatch bytecode input idx = some r := by
  obtain ⟨hwf0, hbi0⟩ := initialState_wf bytecode idx hv
  have hdi0 := DrainInv_initial bytecode idx hv
  obtain ⟨s1, hs1, hwf1, hbi1, hidx1, hact1⟩ :=
    RunActiveThreads_total bytecode idx hv (initialState bytecode idx)
      hwf0 hbi0
  have hagree := RunActiveThreadsC_fst bytecode (initialState bytecode idx)
  rcases hC1 : RunActiveThreadsC bytecode (initialState bytecode idx)
      with _ | r1
  · rw [hC1] at hagree
    rw [hs1] at hagree
    exact absurd hagree.symm (by simp)
  · obtain ⟨s1', ok1⟩ := r1
    rw [hC1, hs1] at hagree
    have hs1' : s1' = s1 := by
      simpa using hagree
    obtain ⟨hdi1, hok1, -, -, -, -⟩ :=
      RunActiveThreadsC_ok bytecode idx hv _ (s1', ok1) hwf0 hbi0 hdi0 hC1
    have hidx1le : s1.input_index ≤ input.length := by
      rw [hidx1]
      exact hidx
    obtain ⟨s2, hs2, hwf2, hbi2, hidx2⟩ :=
      FindNextMatchLoop_total bytecode input idx hv
        (input.length - idx) s1 hwf1 hbi1 hidx1le
        (by have hii : (initialState bytecode idx).input_index = idx := rfl
            omega)
    have hagree2 := FindNextMatchLoopC_fst bytecode input
      (input.length - idx) s1
    rcases hC2 : FindNextMatchLoopC bytecode input (input.length - idx) s1
        with _ | r2
    · rw [hC2] at hagree2
      rw [hs2] at hagree2
      exact absurd hagree2.symm (by simp)
    · obtain ⟨s2', ok2⟩ := r2
      rw [hC2, hs2] at hagree2
      have hs2' : s2' = s2 := by
        simpa using hagree2
      have hok2 : ok2 = true := by
        have hnd1 : (s1.blocked_threads.map InterpreterThread.pc).Nodup := by
          have := hdi1.blocked_nodup
          rw [show ((s1', ok1) : NfaState × Bool).1 = s1' from rfl,
            hs1'] at this
          exact this
        have hbl1 : s1.blocked_threads.length ≤
            rangeCountP isCONSUMEb bytecode := by
          have hb := hdi1.bbound
          rw [show ((s1', ok1) : NfaState × Bool).1 = s1' from rfl,
            hs1'] at hb
          omega
        have := FindNextMatchLoopC_ok bytecode input idx hv
          (input.length - idx) s1 (s2', ok2) hwf1 hbi1 hnd1 hbl1 hact1
          hidx1le hC2
        exact this
      have hok1' : ok1 = true := hok1
      subst hs1'
      subst hs2'
      refine ⟨(s2'.best_match, s2'.input_index), ?_, ?_⟩
      · simp only [FindNextMatchC, hC1, hC2]
        rw [hok1', hok2]
        rfl
      · simp only [FindNextMatch, hs1, hs2]

end ExperimentalRegExp

namespace ExperimentalRegExp

/-- C8, counterexample to the claim as stated: the Active stack can hold two
threads with the same PC at once.  In `c8Program` (two `FORK`s onto the same
`CONSUME_RANGE` at PC 2), running the initial thread `⟨0, 0⟩` — exactly the
call `RunActiveThread(t)` that `RunActiveThreads` makes after popping the
seed thread — returns with two threads of PC 2 on `active_threads`, so the
per-step "no two threads share a pc value" property fails for Active.  (The
dedup table only prevents such a thread from being *run* twice, not from
being *pushed* twice.) -/
theorem c8_counterexample :
    validProgram c8Program = true ∧
    ∃ s', RunActiveThread c8Program 5 ⟨0, 0⟩
        { pc_last_input_index := List.replicate 4 (-1)
          active_threads := []
          blocked_threads := []
          best_match := none
          input_index := 0 } = some s' ∧
      ¬ (s'.active_threads.map InterpreterThread.pc).Nodup :=
  ⟨by decide, _, rfl, by decide⟩

/-- C8 (amended): in a complete single-match search on a valid program, every
intermediate interpreter state satisfies the checked properties: the Active
and Blocked sets never grow beyond `bytecode.length` (the program size), and
no two threads in Blocked share a PC value.  (Active may transiently hold
duplicate PCs, see the counterexample; the dedup table only guarantees that
at most one of them is ever executed.)  Formally: the instrumented run
`FindNextMatchC`, which `&&`s a `stateOk` check over every intermediate
state, succeeds with flag `true` and computes the same result as the plain
`FindNextMatch`. -/
theorem c8_no_duplicate_pcs (bytecode : List RegExpInstruction)
    (input : List Nat) (idx : Nat) (hv : validProgram bytecode = true)
    (hidx : idx ≤ input.length) :
    ∃ r : Option MatchRange × Nat,
      FindNextMatchC bytecode input idx = some (r, true) ∧
      FindNextMatch bytecode input idx = some r :=
  FindNextMatchC_ok bytecode input idx hv hidx

/-- Witness for C8 at a concrete program and input. -/
theorem c8_no_duplicate_pcs_witness :
    validProgram c8Program = true ∧ 0 ≤ ([97, 97] : List Nat).length ∧
    ∃ r : Option MatchRange × Nat,
      FindNextMatchC c8Program [97, 97] 0 = some (r, true) ∧
      FindNextMatch c8Program [97, 97] 0 = some r :=
  ⟨by decide, by decide,
    c8_no_duplicate_pcs c8Program [97, 97] 0 (by decide) (by decide)⟩

end ExperimentalRegExp

namespace ExperimentalRegExp

/-- On the scenario-1 program and input, the backtracking reference VM and
the breadth-first interpreter agree: both report the match (0, 3). -/
theorem bt_scenario1_agrees :
    btSearch scenario1Program scenario1Input 200 0
        (scenario1Input.length + 1) = some (some (0, 3)) ∧
    (FindNextMatch scenario1Program scenario1Input 0).map Prod.fst =
      some (some ⟨0, 3⟩) := by
  constructor
  · decide
  · decide

end ExperimentalRegExp
